import Mathlib

/-!
# Odd-even transposition sort over MPI (`oets.cpp`)

A shallow embedding of the program `oets.cpp`.  Every MPI process owns the
two locals `my_number` and `recieved_number` of `main`.  The two helper
functions `send_recieve` and `swap_numbers` are translated as pure functions
from the caller's locals to the single point-to-point MPI call they issue
(`Comm`); `exec` runs such a call against the shared network of messages in
transit.

The processes of the real program run concurrently.  `sort_round`, `sort_loop`
and `main` fix one interleaving that respects the program order of every rank:
within round `i` all ranks run `send_recieve` in increasing rank order, then
all ranks run `swap_numbers` in decreasing rank order.  A receive whose message
is not yet in transit would block; `exec` reports it as `none`.  `stepRank` and
`runSched` let the ranks run their loops on their own, in any order of their
steps, and `runSched_good` with `good_finished` show that every order that lets
all ranks finish ends with the same values as `sort_loop`.

The values are `unsigned char`; they are only copied and compared, never
computed with, so they are embedded as natural numbers.  Ranks are the `int`s
handed out by `MPI_Comm_rank`, hence never negative: `rank` and `size` are
natural numbers, and the neighbour ranks `rank - 1` and `rank + 1` are computed
in the integers as in the source.

Sorting is proved by counting, for every threshold `c`, the values at most `c`
in every prefix of the ranks (`cnt`, `Bound`): a round moves such values to the
left fast enough for `N` rounds to bring all of them to the front.
-/

namespace Oets

/-- Rank of the root process (`#define ROOT 0`). -/
def ROOT : Nat := 0

/-- The locals `my_number` and `recieved_number` of `main` in one process.
`recieved_number` is declared without initialiser: `none` until written. -/
structure Proc where
  my_number : Nat
  recieved_number : Option Nat
deriving DecidableEq

/-- The point-to-point call issued by one invocation of `send_recieve` or
`swap_numbers`, together with the caller's locals afterwards. -/
inductive Comm where
  /-- The function returns without any MPI call. -/
  | done (p : Proc)
  /-- The call `MPI_Send(&val, 1, MPI_UNSIGNED_CHAR, dest, 0, ...)`. -/
  | send (dest : Int) (val : Nat) (p : Proc)
  /-- The call `MPI_Recv(buf, 1, MPI_UNSIGNED_CHAR, source, 0, ...)`; `k x` are the
  locals once the byte `x` has been stored in `buf`. -/
  | recv (source : Int) (k : Nat → Proc)
  /-- The function reads `recieved_number` while it is still uninitialised. -/
  | undefined

/-- The function `send_recieve` of `oets.cpp` (lines 136-160). -/
def send_recieve (p : Proc) (rank size sender_flag : Nat) : Comm :=
  if rank % 2 = sender_flag then
    let recv_rank : Int := (rank : Int) + 1
    if recv_rank ≥ (size : Int) then
      Comm.done p
    else
      Comm.send ((rank : Int) + 1) p.my_number p
  else
    let sender_rank : Int := (rank : Int) - 1
    if sender_rank < 0 then
      Comm.done p
    else
      Comm.recv sender_rank (fun x => { p with recieved_number := some x })

/-- The function `swap_numbers` of `oets.cpp` (lines 96-133). -/
def swap_numbers (p : Proc) (rank size sender_flag : Nat) : Comm :=
  if rank % 2 ≠ sender_flag then
    let neighbour_rank : Int := (rank : Int) - 1
    if neighbour_rank < 0 then
      Comm.done p
    else
      match p.recieved_number with
      | none => Comm.undefined
      | some recieved =>
        if recieved > p.my_number then
          Comm.send neighbour_rank p.my_number { p with my_number := recieved }
        else
          Comm.send neighbour_rank recieved p
  else
    let neighbour_rank : Int := (rank : Int) + 1
    if neighbour_rank ≥ (size : Int) then
      Comm.done p
    else
      Comm.recv neighbour_rank (fun x => { p with my_number := x })

/-- A message in transit (all messages of the program carry tag 0). -/
structure Msg where
  src : Int
  dst : Int
  val : Nat
deriving DecidableEq

/-- A completed MPI point-to-point call: who called, the partner rank named in
the call, and the byte transferred. -/
inductive Event where
  | sent (rank : Nat) (dest : Int) (val : Nat)
  | received (rank : Nat) (source : Int) (val : Nat)
deriving DecidableEq

/-- All processes of `MPI_COMM_WORLD` (index = rank), the messages in transit
(oldest first) and the history of completed calls. -/
structure World where
  procs : List Proc
  net : List Msg
  log : List Event
deriving DecidableEq

/-- Takes the oldest message from `source` to `rank` out of the network. -/
def takeMsg (source : Int) (rank : Nat) : List Msg → Option (Nat × List Msg)
  | [] => none
  | m :: ms =>
    if m.src = source ∧ m.dst = (rank : Int) then some (m.val, ms)
    else (takeMsg source rank ms).map (fun r => (r.1, m :: r.2))

/-- Runs the call `c` of process `rank`.  A send to a rank outside the
communicator is an MPI error, a receive without matching message blocks, and
a read of an uninitialised local is undefined: all three give `none`. -/
def exec (c : Comm) (rank : Nat) (w : World) : Option World :=
  match c with
  | Comm.done p => some { w with procs := w.procs.set rank p }
  | Comm.send dest val p =>
    if 0 ≤ dest ∧ dest < (w.procs.length : Int) then
      some { procs := w.procs.set rank p
             net := w.net ++ [⟨(rank : Int), dest, val⟩]
             log := w.log ++ [Event.sent rank dest val] }
    else none
  | Comm.recv source k =>
    if 0 ≤ source ∧ source < (w.procs.length : Int) then
      match takeMsg source rank w.net with
      | none => none
      | some (x, net) =>
        some { procs := w.procs.set rank (k x)
               net := net
               log := w.log ++ [Event.received rank source x] }
    else none
  | Comm.undefined => none

/-- Process `rank` calls `f(&my_number, &recieved_number, rank, size, sender_flag)`. -/
def call (f : Proc → Nat → Nat → Nat → Comm) (sender_flag : Nat) (rank : Nat) (w : World) :
    Option World :=
  match w.procs[rank]? with
  | none => none
  | some p => exec (f p rank w.procs.length sender_flag) rank w

/-- The ranks of `ranks`, one after the other, call `f`. -/
def phase (f : Proc → Nat → Nat → Nat → Comm) (sender_flag : Nat) :
    List Nat → World → Option World
  | [], w => some w
  | r :: rs, w => (call f sender_flag r w).bind (phase f sender_flag rs)

/-- Body of the loop of `main` (lines 72-79) for iteration `i`, on all ranks. -/
def sort_round (i : Nat) (w : World) : Option World :=
  (phase send_recieve (i % 2) (List.range w.procs.length) w).bind
    (fun w1 => phase swap_numbers (i % 2) (List.range w1.procs.length).reverse w1)

/-- The loop `for (int i = ...; i < size; i++)` of `main` with `k` iterations left. -/
def sort_loop (i : Nat) : Nat → World → Option World
  | 0, w => some w
  | k + 1, w => (sort_round i w).bind (sort_loop (i + 1) k)

/-- The function `load_data` (lines 163-191): `none` stands for a file `numbers` that
cannot be opened, where `load_data` calls `MPI_Abort`. -/
def load_data (file : Option (List Nat)) : Option (List Nat) := file

/-- The collective `MPI_Scatter(numbers.data(), 1, ..., &my_number, 1, ..., ROOT, ...)`:
rank `r` receives `numbers[r]`.  With fewer than `size` elements the root reads
past the end of the vector, which is undefined (`none`). -/
def MPI_Scatter (numbers : List Nat) (size : Nat) : Option (List Proc) :=
  if size ≤ numbers.length then
    some ((numbers.take size).map (fun x => { my_number := x, recieved_number := none }))
  else none

/-- The collective `MPI_Gather(&my_number, 1, ..., numbers.data(), 1, ..., ROOT, ...)`:
entry `r` of the root's vector is overwritten by the value of rank `r`. -/
def MPI_Gather (procs : List Proc) (numbers : List Nat) : List Nat :=
  procs.map (fun p => p.my_number) ++ numbers.drop procs.length

/-- How a run of the program ends. -/
inductive Outcome where
  /-- `load_data` could not open the file and called `MPI_Abort(MPI_COMM_WORLD, 1)`. -/
  | aborted
  /-- The scatter read past the end of the vector. -/
  | undefined
  /-- A process blocked forever, or an MPI call failed, during the loop. -/
  | stuck
  /-- Normal end: the numbers printed before and after the sort, and the
  history of point-to-point calls. -/
  | finished (before after : List Nat) (log : List Event)
deriving DecidableEq

/-- The function `main` of `oets.cpp` (lines 45-93), run by `size` processes, with
the content of the file `numbers` as input. -/
def main (file : Option (List Nat)) (size : Nat) : Outcome :=
  match load_data file with
  | none => Outcome.aborted
  | some numbers =>
    match MPI_Scatter numbers size with
    | none => Outcome.undefined
    | some procs =>
      match sort_loop 0 size { procs := procs, net := [], log := [] } with
      | none => Outcome.stuck
      | some w => Outcome.finished numbers (MPI_Gather w.procs numbers) w.log

/-- The values held by the ranks, in rank order. -/
def World.values (w : World) : List Nat := w.procs.map (fun p => p.my_number)

/-! ## Expected effect of one round

Functions on plain lists of values that describe what a round and the loop do.
`sort_round_spec` and `sort_loop_spec` below prove that the embedding of the program
computes exactly these; the sorting argument is then carried out on them. -/

/-- The values held by the processes `ps`, in rank order. -/
def vals (ps : List Proc) : List Nat := ps.map (fun p => p.my_number)

/-- Value of rank `r` after a compare-exchange round with flag `flag` on the values `v`. -/
def roundVal (flag : Nat) (v : List Nat) (r : Nat) : Nat :=
  if r % 2 = flag then
    if r + 1 < v.length then min (v.getD r 0) (v.getD (r + 1) 0) else v.getD r 0
  else
    if 1 ≤ r then max (v.getD (r - 1) 0) (v.getD r 0) else v.getD r 0

/-- The values after a compare-exchange round with flag `flag` on the values `v`. -/
def roundList (flag : Nat) (v : List Nat) : List Nat :=
  (List.range v.length).map (roundVal flag v)

/-- Content of `recieved_number` of rank `r` after a round, `old` being its content before. -/
def roundRecv (flag : Nat) (v : List Nat) (r : Nat) (old : Option Nat) : Option Nat :=
  if r % 2 ≠ flag ∧ 1 ≤ r then some (v.getD (r - 1) 0) else old

/-- Calls completed by rank `r` inside `send_recieve`. -/
def evA (flag : Nat) (v : List Nat) (r : Nat) : List Event :=
  if r % 2 = flag then
    if r + 1 < v.length then [Event.sent r ((r : Int) + 1) (v.getD r 0)] else []
  else
    if 1 ≤ r then [Event.received r ((r : Int) - 1) (v.getD (r - 1) 0)] else []

/-- Calls completed by rank `r` inside `swap_numbers`. -/
def evB (flag : Nat) (v : List Nat) (r : Nat) : List Event :=
  if r % 2 ≠ flag then
    if 1 ≤ r then [Event.sent r ((r : Int) - 1) (min (v.getD (r - 1) 0) (v.getD r 0))] else []
  else
    if r + 1 < v.length then
      [Event.received r ((r : Int) + 1) (min (v.getD r 0) (v.getD (r + 1) 0))]
    else []

/-- Calls completed during one round, in the order of the embedding. -/
def roundLog (flag : Nat) (v : List Nat) : List Event :=
  (List.range v.length).flatMap (evA flag v) ++
    (List.range v.length).reverse.flatMap (evB flag v)

/-- The values after the rounds `i, i+1, ..., i+k-1`. -/
def iterRounds (i : Nat) : Nat → List Nat → List Nat
  | 0, v => v
  | k + 1, v => iterRounds (i + 1) k (roundList (i % 2) v)

/-- The calls completed during the rounds `i, i+1, ..., i+k-1`. -/
def iterLog (i : Nat) : Nat → List Nat → List Event
  | 0, _ => []
  | k + 1, v => roundLog (i % 2) v ++ iterLog (i + 1) k (roundList (i % 2) v)

/-- State of the world inside `send_recieve` of a round started from the processes
`ps` with history `lg`, once the ranks below `j` have run it. -/
structure InvA (flag : Nat) (ps : List Proc) (lg : List Event) (j : Nat) (w : World) : Prop where
  len : w.procs.length = ps.length
  procs : ∀ r, w.procs[r]? = (ps[r]?).map (fun p =>
    if r < j then { p with recieved_number := roundRecv flag (vals ps) r p.recieved_number }
    else p)
  net : w.net =
    if 1 ≤ j ∧ (j - 1) % 2 = flag ∧ j < ps.length then
      [⟨((j - 1 : Nat) : Int), (j : Int), (vals ps).getD (j - 1) 0⟩]
    else []
  log : w.log = lg ++ (List.range j).flatMap (evA flag (vals ps))

/-- State of the world inside `swap_numbers` of a round started from the processes
`ps` with history `lg`, once the ranks `j, j+1, ...` have run it. -/
structure InvB (flag : Nat) (ps : List Proc) (lg : List Event) (j : Nat) (w : World) : Prop where
  len : w.procs.length = ps.length
  procs : ∀ r, w.procs[r]? = (ps[r]?).map (fun p =>
    Proc.mk (if j ≤ r then roundVal flag (vals ps) r else p.my_number)
      (roundRecv flag (vals ps) r p.recieved_number))
  net : w.net =
    if j % 2 ≠ flag ∧ 1 ≤ j ∧ j < ps.length then
      [⟨(j : Int), (j : Int) - 1, min ((vals ps).getD (j - 1) 0) ((vals ps).getD j 0)⟩]
    else []
  log : w.log = lg ++ (List.range ps.length).flatMap (evA flag (vals ps)) ++
    (List.range' j (ps.length - j)).reverse.flatMap (evB flag (vals ps))

/-- Number of ranks below `m` whose value under `f` satisfies `P`. -/
def cnt (P : Nat → Bool) (f : Nat → Nat) : Nat → Nat
  | 0 => 0
  | m + 1 => cnt P f m + (if P (f m) then 1 else 0)

/-- The value of rank `r` in the list `v` (0 beyond its end). -/
def at_ (v : List Nat) (r : Nat) : Nat := v.getD r 0

/-- The test "value at most `c`". -/
def atMost (c : Nat) (x : Nat) : Bool := decide (x ≤ c)

/-- Progress of the values at most `c` after `t` rounds: every prefix of length `m`
already holds `m` of them, or all of them, or at least half of `m + t` minus the number
of values above `c`. -/
def Bound (c t : Nat) (v : List Nat) : Prop :=
  ∀ m, m ≤ v.length →
    m ≤ cnt (atMost c) (at_ v) m ∨
    cnt (atMost c) (at_ v) v.length ≤ cnt (atMost c) (at_ v) m ∨
    m + t + cnt (atMost c) (at_ v) v.length ≤
      2 * cnt (atMost c) (at_ v) m + v.length + (m + t) % 2

/-- The schedule entry of a completed call: direction (`true` for a send), calling rank
and partner rank, without the byte transferred. -/
def Event.link : Event → Bool × Nat × Int
  | Event.sent rank dest _ => (true, rank, dest)
  | Event.received rank source _ => (false, rank, source)

/-- The partner rank named in the call, if the function issues one. -/
def Comm.partner : Comm → Option Int
  | Comm.done _ => none
  | Comm.send dest _ _ => some dest
  | Comm.recv source _ => some source
  | Comm.undefined => none

/-- The call is an `MPI_Send` to rank `dest`. -/
def Comm.sendsTo : Comm → Int → Bool
  | Comm.send d _ _, dest => decide (d = dest)
  | _, _ => false

/-- The call is an `MPI_Recv` from rank `source`. -/
def Comm.recvsFrom : Comm → Int → Bool
  | Comm.recv s _, source => decide (s = source)
  | _, _ => false

/-- The calling rank and the partner rank of a completed call both lie in `[0, n)`. -/
def Event.inside (n : Nat) (e : Event) : Prop :=
  (Event.link e).2.1 < n ∧ 0 ≤ (Event.link e).2.2 ∧ (Event.link e).2.2 < (n : Int)

/-! ## The processes running on their own

In the program every process runs the loop of `main` by itself.  `Sys` adds to the world
the progress of every rank through its own loop, `stepRank` lets one rank make its next
call of `send_recieve` or `swap_numbers`, and `runSched` runs the ranks in any order given
as a list.  Sends are buffered: a send never waits, a receive can only be run once its
message is in transit (`stepRank` is `none` otherwise, as it is for a rank that has left
its loop).  A run in which every send waits for its receive is the special case of an
order in which each send is directly followed by the matching receive. -/

/-- The world together with, for every rank, the number of calls of `send_recieve` and
`swap_numbers` the rank has completed: the loop counter `i` of the rank is `pc / 2`, and the
next call is `send_recieve` when `pc` is even, `swap_numbers` when it is odd. -/
structure Sys where
  world : World
  pc : Nat → Nat

/-- Rank `rank` runs the next statement of its loop `for (i = 0; i < size; i++)`:
`send_recieve(..., i % 2)`, then `swap_numbers(..., i % 2)`. -/
def stepRank (rank : Nat) (s : Sys) : Option Sys :=
  if s.pc rank / 2 < s.world.procs.length then
    (call (if s.pc rank % 2 = 0 then send_recieve else swap_numbers)
      ((s.pc rank / 2) % 2) rank s.world).map
      (fun w => { world := w, pc := Function.update s.pc rank (s.pc rank + 1) })
  else none

/-- The ranks listed in `sched` make one step each, in that order. -/
def runSched : List Nat → Sys → Option Sys
  | [], s => some s
  | r :: rs, s => (stepRank r s).bind (runSched rs)

/-- Every rank has left its loop (`i < size` is false). -/
def Sys.finished (s : Sys) : Prop :=
  ∀ r, r < s.world.procs.length → s.world.procs.length ≤ s.pc r / 2

/-- The order of `sort_loop` for `k` rounds of `size` ranks: in every round the ranks in
increasing order, then the ranks in decreasing order. -/
def lockstep (size : Nat) : Nat → List Nat
  | 0 => []
  | k + 1 => (List.range size ++ (List.range size).reverse) ++ lockstep size k

/-- The value rank `r` holds at the start of round `i` when the input is `xs`. -/
def valAt (xs : List Nat) (i r : Nat) : Nat := at_ (iterRounds 0 i xs) r

/-- The message `m` in transit is the value of an active pair `r`, `r+1` of some round `i`
on its way up, sent and not yet received, or the smaller value of the pair on its way
back, sent and not yet received. -/
def MsgOK (xs : List Nat) (pc : Nat → Nat) (m : Msg) : Prop :=
  ∃ r i, r + 1 < xs.length ∧ r % 2 = i % 2 ∧
    ((m.src = (r : Int) ∧ m.dst = (r : Int) + 1 ∧ m.val = valAt xs i r ∧
        2 * i + 1 ≤ pc r ∧ pc (r + 1) ≤ 2 * i) ∨
     (m.src = (r : Int) + 1 ∧ m.dst = (r : Int) ∧
        m.val = min (valAt xs i r) (valAt xs i (r + 1)) ∧
        2 * i + 2 ≤ pc (r + 1) ∧ pc r ≤ 2 * i + 1))

/-- What holds of the processes at any moment of any run on the input values `xs`. -/
structure Good (xs : List Nat) (s : Sys) : Prop where
  len : s.world.procs.length = xs.length
  bound : ∀ r, r < xs.length → s.pc r ≤ 2 * xs.length
  own : ∀ r p, s.world.procs[r]? = some p → p.my_number = valAt xs (s.pc r / 2) r
  buf : ∀ r p, s.world.procs[r]? = some p → s.pc r % 2 = 1 →
    r % 2 ≠ (s.pc r / 2) % 2 → 1 ≤ r →
    p.recieved_number = some (valAt xs (s.pc r / 2) (r - 1))
  causeFwd : ∀ r i, r + 1 < xs.length → r % 2 = i % 2 →
    2 * i + 1 ≤ s.pc (r + 1) → 2 * i + 1 ≤ s.pc r
  causeBwd : ∀ r i, r + 1 < xs.length → r % 2 = i % 2 →
    2 * i + 2 ≤ s.pc r → 2 * i + 2 ≤ s.pc (r + 1)
  msgs : ∀ m ∈ s.world.net, MsgOK xs s.pc m
  chan : (s.world.net.map (fun m => (m.src, m.dst))).Nodup

/-! ## Running a phase -/

theorem phase_steps (f : Proc → Nat → Nat → Nat → Comm) (flag : Nat) :
    ∀ (rs : List Nat) (Inv : Nat → World → Prop) (w : World),
      (∀ k (hk : k < rs.length) (u : World), Inv k u →
        ∃ u', call f flag (rs.get ⟨k, hk⟩) u = some u' ∧ Inv (k + 1) u') →
      Inv 0 w → ∃ w', phase f flag rs w = some w' ∧ Inv rs.length w' := by
  intro rs
  induction rs with
  | nil => intro Inv w _ h0; exact ⟨w, rfl, h0⟩
  | cons r rs ih =>
    intro Inv w hstep h0
    obtain ⟨u, hu, hInv⟩ := hstep 0 (by simp) w h0
    obtain ⟨w', hw', hfin⟩ := ih (fun k => Inv (k + 1)) u
      (fun k hk x hx => hstep (k + 1) (by simpa using hk) x hx) hInv
    refine ⟨w', ?_, hfin⟩
    simp only [List.get_eq_getElem, List.getElem_cons_zero] at hu
    simp [phase, hu, hw']

theorem vals_getD (ps : List Proc) (r : Nat) (p : Proc) (h : ps[r]? = some p) :
    (vals ps).getD r 0 = p.my_number := by
  simp [vals, List.getD_eq_getElem?_getD, List.getElem?_map, h]

theorem vals_length (ps : List Proc) : (vals ps).length = ps.length := by
  simp [vals]

theorem flatMap_range_succ (f : Nat → List Event) (j : Nat) :
    (List.range (j + 1)).flatMap f = (List.range j).flatMap f ++ f j := by
  rw [List.range_succ, List.flatMap_append]
  simp [List.flatMap]

theorem procsA_step (flag : Nat) (ps qs : List Proc) (j : Nat) (hj : j < ps.length)
    (hlen : qs.length = ps.length)
    (hprocs : ∀ r, qs[r]? = (ps[r]?).map (fun p =>
      if r < j then { p with recieved_number := roundRecv flag (vals ps) r p.recieved_number }
      else p))
    (q : Proc)
    (hq : q = { ps[j] with
      recieved_number := roundRecv flag (vals ps) j (ps[j]).recieved_number }) :
    ∀ r, (qs.set j q)[r]? = (ps[r]?).map (fun p =>
      if r < j + 1 then
        { p with recieved_number := roundRecv flag (vals ps) r p.recieved_number }
      else p) := by
  intro r
  rw [List.getElem?_set]
  by_cases hr : j = r
  · subst hr
    simp [hlen, hj, hq]
  · have h1 : r < j + 1 ↔ r < j := by omega
    simp only [hr, if_false, hprocs r, h1]

theorem stepA (flag : Nat) (hf : flag < 2) (ps : List Proc) (lg : List Event) (j : Nat)
    (hj : j < ps.length) (w : World) (h : InvA flag ps lg j w) :
    ∃ w', call send_recieve flag j w = some w' ∧ InvA flag ps lg (j + 1) w' := by
  obtain ⟨hlen, hprocs, hnet, hlog⟩ := h
  have hpj : ps[j]? = some ps[j] := List.getElem?_eq_getElem hj
  have hwj : w.procs[j]? = some ps[j] := by rw [hprocs j, hpj]; simp
  unfold call
  rw [hwj]
  simp only [send_recieve]
  have hv : (vals ps).length = ps.length := vals_length ps
  by_cases hpar : j % 2 = flag
  · have hnet0 : w.net = [] := by
      rw [hnet]; apply if_neg; omega
    have hq : ps[j] = { ps[j] with
        recieved_number := roundRecv flag (vals ps) j (ps[j]).recieved_number } := by
      simp [roundRecv, hpar]
    by_cases hlast : ((j : Int) + 1 ≥ (w.procs.length : Int))
    · simp only [hpar, hlast, if_true, exec]
      have hl : ¬ (j + 1 < ps.length) := by rw [← hlen]; omega
      refine ⟨_, rfl, ⟨by simpa using hlen, procsA_step flag ps _ j hj hlen hprocs _ hq, ?_, ?_⟩⟩
      · simp only [hnet0]
        rw [if_neg]; omega
      · rw [hlog, flatMap_range_succ]
        simp only [evA, hpar, hv, hl, if_true, if_false]
        simp
    · simp only [hpar, hlast, if_true, if_false, exec]
      have hl : j + 1 < ps.length := by rw [← hlen]; omega
      have hl2 : (0 : Int) ≤ (j : Int) + 1 ∧ (j : Int) + 1 < (w.procs.length : Int) := by omega
      rw [if_pos hl2]
      refine ⟨_, rfl, ⟨by simpa using hlen, procsA_step flag ps _ j hj hlen hprocs _ hq, ?_, ?_⟩⟩
      · simp only [hnet0, List.nil_append]
        rw [if_pos ⟨by omega, by simpa using hpar, hl⟩]
        simp only [Nat.add_sub_cancel, vals_getD ps j _ hpj]
        simp
      · rw [hlog, flatMap_range_succ]
        simp only [evA, hpar, hv, hl, if_true, vals_getD ps j _ hpj]
        simp
  · by_cases hzero : ((j : Int) - 1 < 0)
    · have hj0 : j = 0 := by omega
      have hq : ps[j] = { ps[j] with
          recieved_number := roundRecv flag (vals ps) j (ps[j]).recieved_number } := by
        simp [roundRecv, hj0]
      have hnet0 : w.net = [] := by
        rw [hnet]; apply if_neg; omega
      simp only [hpar, hzero, if_true, if_false, exec]
      refine ⟨_, rfl, ⟨by simpa using hlen, procsA_step flag ps _ j hj hlen hprocs _ hq, ?_, ?_⟩⟩
      · simp only [hnet0]
        rw [if_neg]; omega
      · rw [hlog, flatMap_range_succ]
        have h10 : ¬ (1 ≤ j) := by omega
        simp only [evA, hpar, h10, if_false]
        simp
    · have hj1 : 1 ≤ j := by omega
      have hprev : (j - 1) % 2 = flag := by omega
      have hnet1 : w.net = [⟨((j - 1 : Nat) : Int), (j : Int), (vals ps).getD (j - 1) 0⟩] := by
        rw [hnet]; apply if_pos; exact ⟨hj1, hprev, hj⟩
      have hsrc : ((j : Int) - 1) = ((j - 1 : Nat) : Int) := by omega
      have hq : ({ ps[j] with recieved_number := some ((vals ps).getD (j - 1) 0) } : Proc) =
          { ps[j] with
            recieved_number := roundRecv flag (vals ps) j (ps[j]).recieved_number } := by
        simp [roundRecv, hj1, hpar]
      have hl2 : (0 : Int) ≤ (j : Int) - 1 ∧ (j : Int) - 1 < (w.procs.length : Int) := by omega
      simp only [hpar, hzero, if_false, exec]
      rw [if_pos hl2, hnet1]
      simp only [takeMsg, hsrc, and_self, if_true]
      refine ⟨_, rfl, ⟨by simpa using hlen, procsA_step flag ps _ j hj hlen hprocs _ hq, ?_, ?_⟩⟩
      · simp only []
        rw [if_neg]; omega
      · rw [hlog, flatMap_range_succ]
        simp only [evA, hpar, hj1, if_true, if_false, hsrc]
        simp
theorem flatMap_range'_rev (f : Nat → List Event) (n j : Nat) (hj : j < n) :
    (List.range' j (n - j)).reverse.flatMap f =
      (List.range' (j + 1) (n - (j + 1))).reverse.flatMap f ++ f j := by
  have h : n - j = (n - (j + 1)) + 1 := by omega
  rw [h, List.range'_succ, List.reverse_cons, List.flatMap_append]
  simp [List.flatMap]

theorem procsB_step (flag : Nat) (ps qs : List Proc) (j : Nat) (hj : j < ps.length)
    (hlen : qs.length = ps.length)
    (hprocs : ∀ r, qs[r]? = (ps[r]?).map (fun p =>
      Proc.mk (if j + 1 ≤ r then roundVal flag (vals ps) r else p.my_number)
        (roundRecv flag (vals ps) r p.recieved_number)))
    (q : Proc)
    (hq : q = Proc.mk (roundVal flag (vals ps) j)
      (roundRecv flag (vals ps) j (ps[j]).recieved_number)) :
    ∀ r, (qs.set j q)[r]? = (ps[r]?).map (fun p =>
      Proc.mk (if j ≤ r then roundVal flag (vals ps) r else p.my_number)
        (roundRecv flag (vals ps) r p.recieved_number)) := by
  intro r
  rw [List.getElem?_set]
  by_cases hr : j = r
  · subst hr
    simp [hlen, hj, hq]
  · have h1 : j + 1 ≤ r ↔ j ≤ r := by omega
    simp only [hr, if_false, hprocs r, h1]

theorem stepB (flag : Nat) (hf : flag < 2) (ps : List Proc) (lg : List Event) (j : Nat)
    (hj : j < ps.length) (w : World) (h : InvB flag ps lg (j + 1) w) :
    ∃ w', call swap_numbers flag j w = some w' ∧ InvB flag ps lg j w' := by
  obtain ⟨hlen, hprocs, hnet, hlog⟩ := h
  have hpj : ps[j]? = some ps[j] := List.getElem?_eq_getElem hj
  have hwj : w.procs[j]? = some (Proc.mk (ps[j]).my_number
      (roundRecv flag (vals ps) j (ps[j]).recieved_number)) := by
    rw [hprocs j, hpj]; simp
  have hv : (vals ps).length = ps.length := vals_length ps
  have hvj : (vals ps).getD j 0 = (ps[j]).my_number := vals_getD ps j _ hpj
  unfold call
  rw [hwj]
  simp only [swap_numbers]
  by_cases hpar : j % 2 = flag
  · by_cases hlast : ((j : Int) + 1 ≥ (w.procs.length : Int))
    · have hl : ¬ (j + 1 < ps.length) := by rw [← hlen]; omega
      have hnet0 : w.net = [] := by
        rw [hnet]; apply if_neg; omega
      have hq : Proc.mk (ps[j]).my_number (roundRecv flag (vals ps) j (ps[j]).recieved_number) =
          Proc.mk (roundVal flag (vals ps) j)
            (roundRecv flag (vals ps) j (ps[j]).recieved_number) := by
        simp only [roundVal, hpar, hv, hl, if_true, if_false, hvj]
      simp only [hpar, hlast, if_true, exec, ne_eq, not_true_eq_false, if_false]
      refine ⟨_, rfl, ⟨by simpa using hlen, procsB_step flag ps _ j hj hlen hprocs _ hq, ?_, ?_⟩⟩
      · simp only [hnet0]
        rw [if_neg]; simp [hpar]
      · rw [hlog, flatMap_range'_rev _ _ _ hj]
        simp only [evB, hpar, hv, hl, if_false, ne_eq, not_true_eq_false]
        simp
    · have hl : j + 1 < ps.length := by rw [← hlen]; omega
      have hnet1 : w.net = [⟨((j + 1 : Nat) : Int), ((j + 1 : Nat) : Int) - 1,
          min ((vals ps).getD (j + 1 - 1) 0) ((vals ps).getD (j + 1) 0)⟩] := by
        rw [hnet]; apply if_pos; exact ⟨by omega, by omega, hl⟩
      have hq : Proc.mk (min ((vals ps).getD j 0) ((vals ps).getD (j + 1) 0))
            (roundRecv flag (vals ps) j (ps[j]).recieved_number) =
          Proc.mk (roundVal flag (vals ps) j)
            (roundRecv flag (vals ps) j (ps[j]).recieved_number) := by
        simp only [roundVal, hpar, hv, hl, if_true]
      have hl2 : (0 : Int) ≤ (j : Int) + 1 ∧ (j : Int) + 1 < (w.procs.length : Int) := by omega
      have hsrc : ((j + 1 : Nat) : Int) = (j : Int) + 1 := by omega
      have hdst : (j : Int) + 1 - 1 = (j : Int) := by omega
      simp only [hpar, hlast, if_true, exec, ne_eq, not_true_eq_false, if_false]
      rw [if_pos hl2, hnet1]
      simp only [takeMsg, hsrc, hdst, and_self, if_true, Nat.add_sub_cancel]
      refine ⟨_, rfl, ⟨by simpa using hlen, procsB_step flag ps _ j hj hlen hprocs _ hq, ?_, ?_⟩⟩
      · simp only []
        rw [if_neg]; simp [hpar]
      · rw [hlog, flatMap_range'_rev _ _ _ hj]
        simp only [evB, hpar, hv, hl, if_true, if_false, ne_eq, not_true_eq_false]
        simp
  · have hnet0 : w.net = [] := by
      rw [hnet]; apply if_neg; omega
    by_cases hzero : ((j : Int) - 1 < 0)
    · have hj0 : ¬ (1 ≤ j) := by omega
      have hq : Proc.mk (ps[j]).my_number (roundRecv flag (vals ps) j (ps[j]).recieved_number) =
          Proc.mk (roundVal flag (vals ps) j)
            (roundRecv flag (vals ps) j (ps[j]).recieved_number) := by
        simp only [roundVal, hpar, hj0, if_false, hvj]
      simp only [hpar, hzero, if_true, exec, ne_eq, not_false_eq_true]
      refine ⟨_, rfl, ⟨by simpa using hlen, procsB_step flag ps _ j hj hlen hprocs _ hq, ?_, ?_⟩⟩
      · simp only [hnet0]
        rw [if_neg]; omega
      · rw [hlog, flatMap_range'_rev _ _ _ hj]
        simp only [evB, hpar, hj0, if_true, if_false, ne_eq, not_false_eq_true]
        simp
    · have hj1 : 1 ≤ j := by omega
      have hrecv : roundRecv flag (vals ps) j (ps[j]).recieved_number =
          some ((vals ps).getD (j - 1) 0) := by
        simp only [roundRecv, hpar, hj1, ne_eq, not_false_eq_true, and_self, if_true]
      have hl2 : (0 : Int) ≤ (j : Int) - 1 ∧ (j : Int) - 1 < (w.procs.length : Int) := by omega
      simp only [hpar, hzero, if_true, if_false, ne_eq, not_false_eq_true, hrecv]
      by_cases hgt : (vals ps).getD (j - 1) 0 > (ps[j]).my_number
      · have hq : Proc.mk ((vals ps).getD (j - 1) 0) (some ((vals ps).getD (j - 1) 0)) =
            Proc.mk (roundVal flag (vals ps) j)
              (roundRecv flag (vals ps) j (ps[j]).recieved_number) := by
          simp only [roundVal, hpar, hj1, if_true, if_false, hvj, hrecv]
          congr 1
          omega
        simp only [hgt, if_true, exec]
        rw [if_pos hl2]
        refine ⟨_, rfl, ⟨by simpa using hlen, procsB_step flag ps _ j hj hlen hprocs _ hq, ?_, ?_⟩⟩
        · simp only [hnet0, List.nil_append]
          rw [if_pos ⟨hpar, hj1, hj⟩, hvj]
          congr 2
          omega
        · rw [hlog, flatMap_range'_rev _ _ _ hj]
          simp only [evB, hpar, hj1, if_true, ne_eq, not_false_eq_true, hvj]
          have hm : min ((vals ps).getD (j - 1) 0) (ps[j]).my_number = (ps[j]).my_number := by
            omega
          rw [hm]
          simp
      · have hq : Proc.mk (ps[j]).my_number (some ((vals ps).getD (j - 1) 0)) =
            Proc.mk (roundVal flag (vals ps) j)
              (roundRecv flag (vals ps) j (ps[j]).recieved_number) := by
          simp only [roundVal, hpar, hj1, if_true, if_false, hvj, hrecv]
          congr 1
          omega
        simp only [hgt, if_false, exec]
        rw [if_pos hl2]
        refine ⟨_, rfl, ⟨by simpa using hlen, procsB_step flag ps _ j hj hlen hprocs _ hq, ?_, ?_⟩⟩
        · simp only [hnet0, List.nil_append]
          rw [if_pos ⟨hpar, hj1, hj⟩, hvj]
          congr 2
          omega
        · rw [hlog, flatMap_range'_rev _ _ _ hj]
          simp only [evB, hpar, hj1, if_true, ne_eq, not_false_eq_true, hvj]
          have hm : min ((vals ps).getD (j - 1) 0) (ps[j]).my_number =
              (vals ps).getD (j - 1) 0 := by
            omega
          rw [hm]
          simp
theorem phaseA_spec (flag : Nat) (hf : flag < 2) (ps : List Proc) (lg : List Event) :
    ∃ w, phase send_recieve flag (List.range ps.length) ⟨ps, [], lg⟩ = some w ∧
      InvA flag ps lg ps.length w := by
  have h := phase_steps send_recieve flag (List.range ps.length) (InvA flag ps lg) ⟨ps, [], lg⟩
    (fun k hk u hu => by
      have hk' : k < ps.length := by simpa using hk
      simpa using stepA flag hf ps lg k hk' u hu)
    ⟨rfl, fun r => by cases ps[r]? <;> simp, by simp, by simp⟩
  simpa using h

theorem phaseB_spec (flag : Nat) (hf : flag < 2) (ps : List Proc) (lg : List Event) (w : World)
    (hw : InvA flag ps lg ps.length w) :
    ∃ w', phase swap_numbers flag (List.range w.procs.length).reverse w = some w' ∧
      InvB flag ps lg 0 w' := by
  obtain ⟨hlen, hprocs, hnet, hlog⟩ := hw
  have h := phase_steps swap_numbers flag (List.range ps.length).reverse
    (fun k => InvB flag ps lg (ps.length - k)) w
    (fun k hk u hu => by
      have hk' : k < ps.length := by simpa using hk
      have hget : (List.range ps.length).reverse.get ⟨k, hk⟩ = ps.length - 1 - k := by
        simp [List.getElem_reverse]
      have h1 : ps.length - k = (ps.length - 1 - k) + 1 := by omega
      have h2 : ps.length - (k + 1) = ps.length - 1 - k := by omega
      rw [hget]
      show ∃ u', _ ∧ InvB flag ps lg (ps.length - (k + 1)) u'
      rw [h2]
      have hu' : InvB flag ps lg (ps.length - k) u := hu
      rw [h1] at hu'
      exact stepB flag hf ps lg _ (by omega) u hu')
    ⟨hlen, fun r => by
        rw [hprocs r]
        rcases hr : ps[r]? with _ | p
        · simp
        · have hlt : r < ps.length := by
            by_contra hc
            have := List.getElem?_eq_none (Nat.le_of_not_lt hc)
            rw [this] at hr
            exact Option.noConfusion hr
          have h3 : ¬ (ps.length ≤ r) := by omega
          simp [hlt, h3],
      by rw [hnet, if_neg (by omega), if_neg (by omega)],
      by simp [hlog]⟩
  rw [hlen]
  simpa using h

/-- One round of the embedding, started with no message in transit, ends with no
message in transit; every rank then holds `roundVal`, and the history has grown
by `roundLog`. -/
theorem sort_round_spec (i : Nat) (ps : List Proc) (lg : List Event) :
    ∃ qs, sort_round i ⟨ps, [], lg⟩ = some ⟨qs, [], lg ++ roundLog (i % 2) (vals ps)⟩ ∧
      qs.length = ps.length ∧
      (∀ r, qs[r]? = (ps[r]?).map (fun p =>
        Proc.mk (roundVal (i % 2) (vals ps) r)
          (roundRecv (i % 2) (vals ps) r p.recieved_number))) ∧
      vals qs = roundList (i % 2) (vals ps) := by
  have hf : i % 2 < 2 := Nat.mod_lt _ (by decide)
  obtain ⟨w1, hw1, hA⟩ := phaseA_spec (i % 2) hf ps lg
  obtain ⟨w2, hw2, hB⟩ := phaseB_spec (i % 2) hf ps lg w1 hA
  obtain ⟨hlen, hprocs, hnet, hlog⟩ := hB
  have hprocs' : ∀ r, w2.procs[r]? = (ps[r]?).map (fun p =>
      Proc.mk (roundVal (i % 2) (vals ps) r)
        (roundRecv (i % 2) (vals ps) r p.recieved_number)) := by
    intro r
    rw [hprocs r]
    simp
  refine ⟨w2.procs, ?_, hlen, hprocs', ?_⟩
  · have hw : w2 = ⟨w2.procs, [], lg ++ roundLog (i % 2) (vals ps)⟩ := by
      cases w2 with
      | mk pr nt lo =>
        simp only [World.mk.injEq, true_and]
        simp only [] at hnet hlog
        refine ⟨?_, ?_⟩
        · rw [hnet]; apply if_neg; omega
        · rw [hlog]
          simp [roundLog, vals_length, List.range_eq_range']
    rw [← hw]
    simp only [sort_round]
    rw [hw1]
    exact hw2
  · apply List.ext_getElem?
    intro r
    simp only [vals, roundList, List.getElem?_map, hprocs' r]
    by_cases hr : r < ps.length
    · simp [List.getElem?_eq_getElem hr, List.getElem?_range, hr, vals]
    · have hn : ps[r]? = none := List.getElem?_eq_none (Nat.le_of_not_lt hr)
      have hn2 : (List.range ps.length)[r]? = none :=
        List.getElem?_eq_none (by simpa using Nat.le_of_not_lt hr)
      simp [hn, hn2]

/-- The loop of `main`, started with no message in transit, runs all its `k`
iterations; the values and the history are those of `iterRounds` and `iterLog`. -/
theorem sort_loop_spec (k : Nat) : ∀ (i : Nat) (ps : List Proc) (lg : List Event),
    ∃ qs, sort_loop i k ⟨ps, [], lg⟩ = some ⟨qs, [], lg ++ iterLog i k (vals ps)⟩ ∧
      qs.length = ps.length ∧ vals qs = iterRounds i k (vals ps) := by
  induction k with
  | zero => intro i ps lg; exact ⟨ps, by simp [sort_loop, iterLog], rfl, rfl⟩
  | succ k ih =>
    intro i ps lg
    obtain ⟨qs, hqs, hlen, _, hvals⟩ := sort_round_spec i ps lg
    obtain ⟨rs, hrs, hlen', hvals'⟩ := ih (i + 1) qs (lg ++ roundLog (i % 2) (vals ps))
    refine ⟨rs, ?_, by omega, ?_⟩
    · simp only [sort_loop, hqs, Option.bind_eq_bind, Option.some_bind, hrs, iterLog, hvals,
        List.append_assoc]
    · simp only [iterRounds, hvals', hvals]

/-! ## Counting argument for the compare-exchange rounds -/

theorem roundList_length (flag : Nat) (v : List Nat) : (roundList flag v).length = v.length := by
  simp [roundList]

theorem at_roundList (flag : Nat) (v : List Nat) (r : Nat) (hr : r < v.length) :
    at_ (roundList flag v) r = roundVal flag v r := by
  unfold at_
  rw [List.getD_eq_getElem _ _ (by simpa [roundList] using hr)]
  simp [roundList]

theorem cnt_le (P : Nat → Bool) (f : Nat → Nat) (m : Nat) : cnt P f m ≤ m := by
  induction m with
  | zero => simp [cnt]
  | succ m ih => simp only [cnt]; split <;> omega

theorem cnt_add (P : Nat → Bool) (f : Nat → Nat) (m d : Nat) :
    cnt P f m ≤ cnt P f (m + d) ∧ cnt P f (m + d) ≤ cnt P f m + d := by
  induction d with
  | zero => simp
  | succ d ih =>
    have h : m + (d + 1) = (m + d) + 1 := by omega
    rw [h]
    simp only [cnt]
    split <;> omega

theorem cnt_mono (P : Nat → Bool) (f : Nat → Nat) (m n : Nat) (h : m ≤ n) :
    cnt P f m ≤ cnt P f n ∧ cnt P f n + m ≤ cnt P f m + n := by
  obtain ⟨d, rfl⟩ := Nat.exists_eq_add_of_le h
  have := cnt_add P f m d
  omega

theorem min_max_count (P : Nat → Bool) (a b : Nat) :
    (if P (min a b) then 1 else 0) + (if P (max a b) then 1 else 0) =
      (if P a then 1 else 0) + (if P b then 1 else 0) := by
  rcases Nat.le_total a b with h | h
  · rw [Nat.min_eq_left h, Nat.max_eq_right h]
  · rw [Nat.min_eq_right h, Nat.max_eq_left h, Nat.add_comm]

/-- Effect of one round on the prefix counts: a prefix that does not end between the two
ranks of an active pair keeps its count; a prefix that ends between rank `m-1` and rank
`m` of an active pair counts the prefix of length `m-1` and the smaller value of the pair. -/
theorem cnt_round (P : Nat → Bool) (flag : Nat) (hf : flag < 2) (v : List Nat) :
    ∀ m, m ≤ v.length →
      (¬ (m % 2 ≠ flag ∧ 1 ≤ m ∧ m < v.length) →
        cnt P (at_ (roundList flag v)) m = cnt P (at_ v) m) ∧
      ((m % 2 ≠ flag ∧ 1 ≤ m ∧ m < v.length) →
        cnt P (at_ (roundList flag v)) m =
          cnt P (at_ v) (m - 1) + (if P (min (at_ v (m - 1)) (at_ v m)) then 1 else 0)) := by
  intro m
  induction m with
  | zero => intro _; exact ⟨fun _ => rfl, fun h => absurd h.2.1 (by omega)⟩
  | succ m ih =>
    intro hm
    have hm' : m < v.length := by omega
    obtain ⟨ih1, ih2⟩ := ih (by omega)
    have hval := at_roundList flag v m hm'
    by_cases hresp : ((m + 1) % 2 ≠ flag ∧ 1 ≤ m + 1 ∧ m + 1 < v.length)
    · refine ⟨fun h => absurd hresp h, fun _ => ?_⟩
      have hpar : m % 2 = flag := by omega
      have h1 := ih1 (by omega)
      simp only [cnt, h1, hval, Nat.add_sub_cancel]
      simp only [roundVal, hpar, hresp.2.2, if_true, at_]
    · refine ⟨fun _ => ?_, fun h => absurd h hresp⟩
      by_cases hprev : (m % 2 ≠ flag ∧ 1 ≤ m ∧ m < v.length)
      · have h2 := ih2 hprev
        have hm1 : m = (m - 1) + 1 := by omega
        have hc : cnt P (at_ v) m = cnt P (at_ v) (m - 1) +
            (if P (at_ v (m - 1)) then 1 else 0) := by
          conv_lhs => rw [hm1]
          simp only [cnt]
        have hmm := min_max_count P (at_ v (m - 1)) (at_ v m)
        have hv2 : roundVal flag v m = max (at_ v (m - 1)) (at_ v m) := by
          simp only [roundVal, hprev.1, hprev.2.1, if_true, if_false, at_]
        simp only [cnt, h2, hval, hc, hv2]
        omega
      · have h1 := ih1 hprev
        have hv2 : roundVal flag v m = at_ v m := by
          unfold roundVal at_
          by_cases hpar : m % 2 = flag
          · have : ¬ (m + 1 < v.length) := by omega
            simp only [hpar, this, if_true, if_false]
          · have : ¬ (1 ≤ m) := by omega
            simp only [hpar, this, if_false]
        simp only [cnt, h1, hval, hv2]

theorem cnt_round_total (P : Nat → Bool) (flag : Nat) (hf : flag < 2) (v : List Nat) :
    cnt P (at_ (roundList flag v)) (roundList flag v).length = cnt P (at_ v) v.length := by
  rw [roundList_length]
  exact (cnt_round P flag hf v v.length (Nat.le_refl _)).1 (by omega)

theorem bound_zero (c : Nat) (v : List Nat) : Bound c 0 v := by
  intro m hm
  have h := cnt_mono (atMost c) (at_ v) m v.length hm
  omega

theorem bound_step (c t : Nat) (v : List Nat) (h : Bound c t v) :
    Bound c (t + 1) (roundList (t % 2) v) := by
  have hf : t % 2 < 2 := Nat.mod_lt _ (by decide)
  intro m hm
  rw [roundList_length] at hm
  rw [cnt_round_total _ _ hf, roundList_length]
  obtain ⟨h1, h2⟩ := cnt_round (atMost c) (t % 2) hf v m hm
  have htot := cnt_mono (atMost c) (at_ v) m v.length hm
  by_cases hresp : (m % 2 ≠ t % 2 ∧ 1 ≤ m ∧ m < v.length)
  · rw [h2 hresp]
    obtain ⟨hp, hm1, hmn⟩ := hresp
    have hb1 := h (m - 1) (by omega)
    have hb2 := h (m + 1) (by omega)
    have hc1 : cnt (atMost c) (at_ v) (m + 1) = cnt (atMost c) (at_ v) m +
        (if atMost c (at_ v m) then 1 else 0) := rfl
    have hm' : m = (m - 1) + 1 := by omega
    have hc0 : cnt (atMost c) (at_ v) m = cnt (atMost c) (at_ v) (m - 1) +
        (if atMost c (at_ v (m - 1)) then 1 else 0) := by
      conv_lhs => rw [hm']
      simp only [cnt]
    have hmin : atMost c (min (at_ v (m - 1)) (at_ v m)) =
        (atMost c (at_ v (m - 1)) || atMost c (at_ v m)) := by
      simp only [atMost]
      rcases Nat.le_total (at_ v (m - 1)) (at_ v m) with hle | hle
      · rw [Nat.min_eq_left hle]
        by_cases hx : at_ v (m - 1) ≤ c <;> by_cases hy : at_ v m ≤ c <;> simp [hx, hy]
        omega
      · rw [Nat.min_eq_right hle]
        by_cases hx : at_ v (m - 1) ≤ c <;> by_cases hy : at_ v m ≤ c <;> simp [hx, hy]
        omega
    rw [hmin]
    rw [hc1, hc0] at hb2
    have e1 : (m - 1 + t) % 2 = 0 := by omega
    have e2 : (m + 1 + t) % 2 = 0 := by omega
    have e3 : (m + (t + 1)) % 2 = 0 := by omega
    rw [e1] at hb1
    rw [e2] at hb2
    rw [e3]
    cases hx : atMost c (at_ v (m - 1)) <;> cases hy : atMost c (at_ v m) <;>
      simp only [hx, hy, Bool.or_self, Bool.or_true, Bool.or_false, if_true, if_false,
        Bool.false_eq_true] at hb2 ⊢ <;> omega
  · rw [h1 hresp]
    have hb := h m hm
    by_cases hm0 : m = 0
    · left; omega
    · by_cases hmn : m = v.length
      · right; left; rw [hmn]
      · have hpar : m % 2 = t % 2 := by omega
        have e1 : (m + t) % 2 = 0 := by omega
        have e2 : (m + (t + 1)) % 2 = 1 := by omega
        rw [e1] at hb
        rw [e2]
        omega

theorem bound_iter (c : Nat) : ∀ (k t : Nat) (v : List Nat), Bound c t v →
    Bound c (t + k) (iterRounds t k v) := by
  intro k
  induction k with
  | zero => intro t v h; exact h
  | succ k ih =>
    intro t v h
    have h1 := ih (t + 1) (roundList (t % 2) v) (bound_step c t v h)
    have e : t + (k + 1) = t + 1 + k := by omega
    rw [e]
    exact h1

theorem iterRounds_length : ∀ (k i : Nat) (v : List Nat),
    (iterRounds i k v).length = v.length := by
  intro k
  induction k with
  | zero => intro i v; rfl
  | succ k ih => intro i v; simp only [iterRounds]; rw [ih, roundList_length]

theorem adjacent_of_bound (u : List Nat) (t : Nat) (ht : t = u.length)
    (h : ∀ c, Bound c t u) (i : Nat) (hi : i + 1 < u.length) :
    at_ u i ≤ at_ u (i + 1) := by
  by_contra hgt
  have hb := h (at_ u (i + 1)) (i + 1) (by omega)
  have h0 := cnt_le (atMost (at_ u (i + 1))) (at_ u) i
  have h2 := cnt_mono (atMost (at_ u (i + 1))) (at_ u) (i + 2) u.length (by omega)
  have e1 : cnt (atMost (at_ u (i + 1))) (at_ u) (i + 1) =
      cnt (atMost (at_ u (i + 1))) (at_ u) i := by
    simp only [cnt, atMost]
    rw [if_neg (by simpa using hgt)]
    rfl
  have e2 : cnt (atMost (at_ u (i + 1))) (at_ u) (i + 2) =
      cnt (atMost (at_ u (i + 1))) (at_ u) (i + 1) + 1 := by
    show cnt _ _ (i + 1) + _ = _
    simp [atMost]
  omega

theorem sorted_of_adjacent (u : List Nat)
    (h : ∀ i, i + 1 < u.length → at_ u i ≤ at_ u (i + 1)) : u.Sorted (· ≤ ·) := by
  unfold List.Sorted
  rw [← List.chain'_iff_pairwise, List.chain'_iff_get]
  intro i hi
  have h1 := h i (by omega)
  unfold at_ at h1
  rw [List.getD_eq_getElem _ _ (by omega), List.getD_eq_getElem _ _ (by omega)] at h1
  simpa using h1

/-- After as many rounds as there are values, starting with an even round, the
values are in non-decreasing order. -/
theorem iterRounds_sorted (v : List Nat) : (iterRounds 0 v.length v).Sorted (· ≤ ·) := by
  apply sorted_of_adjacent
  apply adjacent_of_bound _ v.length (by rw [iterRounds_length])
  intro c
  have h := bound_iter c v.length 0 v (bound_zero c v)
  simpa using h

theorem cnt_cons (P : Nat → Bool) (a : Nat) (l : List Nat) (m : Nat) :
    cnt P (at_ (a :: l)) (m + 1) = cnt P (at_ l) m + (if P a then 1 else 0) := by
  induction m with
  | zero => simp [cnt, at_]
  | succ m ih =>
    have e : cnt P (at_ (a :: l)) (m + 1 + 1) =
        cnt P (at_ (a :: l)) (m + 1) + (if P (at_ l m) then 1 else 0) := rfl
    rw [e, ih]
    simp only [cnt]
    omega

theorem cnt_eq_countP (P : Nat → Bool) (l : List Nat) :
    cnt P (at_ l) l.length = l.countP P := by
  induction l with
  | nil => rfl
  | cons a l ih => rw [List.length_cons, cnt_cons, ih, List.countP_cons]

/-- A round only exchanges values between ranks. -/
theorem roundList_perm (flag : Nat) (hf : flag < 2) (v : List Nat) :
    (roundList flag v).Perm v := by
  rw [List.perm_iff_count]
  intro a
  rw [List.count_eq_countP, List.count_eq_countP, ← cnt_eq_countP, ← cnt_eq_countP]
  exact cnt_round_total _ flag hf v

theorem iterRounds_perm : ∀ (k i : Nat) (v : List Nat), (iterRounds i k v).Perm v := by
  intro k
  induction k with
  | zero => intro i v; exact List.Perm.refl _
  | succ k ih =>
    intro i v
    exact (ih (i + 1) _).trans (roundList_perm (i % 2) (Nat.mod_lt _ (by decide)) v)

/-- A round leaves values in non-decreasing order as they are. -/
theorem roundList_sorted (flag : Nat) (v : List Nat) (h : v.Sorted (· ≤ ·)) :
    roundList flag v = v := by
  apply List.ext_getElem (roundList_length flag v)
  intro r h1 h2
  have hle : ∀ a b (ha : a < v.length) (hb : b < v.length), a ≤ b → v[a] ≤ v[b] := by
    intro a b ha hb hab
    have := List.Sorted.rel_get_of_le h (a := ⟨a, ha⟩) (b := ⟨b, hb⟩) hab
    simpa using this
  simp only [roundList, List.getElem_map, List.getElem_range, roundVal]
  by_cases hpar : r % 2 = flag
  · by_cases hl : r + 1 < v.length
    · simp only [hpar, hl, if_true]
      rw [List.getD_eq_getElem _ _ h2, List.getD_eq_getElem _ _ hl]
      exact Nat.min_eq_left (hle r (r + 1) h2 hl (by omega))
    · simp only [hpar, hl, if_true, if_false]
      rw [List.getD_eq_getElem _ _ h2]
  · by_cases hl : 1 ≤ r
    · simp only [hpar, hl, if_true, if_false]
      have h0 : r - 1 < v.length := by omega
      rw [List.getD_eq_getElem _ _ h2, List.getD_eq_getElem _ _ h0]
      exact Nat.max_eq_right (hle (r - 1) r h0 h2 (by omega))
    · simp only [hpar, hl, if_false]
      rw [List.getD_eq_getElem _ _ h2]

theorem vals_scatter (xs : List Nat) :
    vals (xs.map (fun x => Proc.mk x none)) = xs := by
  induction xs with
  | nil => rfl
  | cons x xs ih =>
    simp only [vals, List.map_cons] at ih ⊢
    rw [ih]

/-- With at least `size` numbers in the file, `main` ends normally: it prints the
numbers, then the first `size` of them after `size` rounds followed by the others. -/
theorem main_spec (xs : List Nat) (size : Nat) (h : size ≤ xs.length) :
    main (some xs) size =
      Outcome.finished xs (iterRounds 0 size (xs.take size) ++ xs.drop size)
        (iterLog 0 size (xs.take size)) := by
  obtain ⟨qs, hqs, hlen, hvals⟩ :=
    sort_loop_spec size 0 ((xs.take size).map (fun x => Proc.mk x none)) []
  rw [vals_scatter] at hvals hqs
  have hl : qs.length = size := by
    rw [hlen]; simp [h]
  simp only [main, load_data, MPI_Scatter, h, if_true, hqs, MPI_Gather, List.nil_append]
  rw [hl]
  have : List.map (fun p => p.my_number) qs = vals qs := rfl
  rw [this, hvals]

theorem iterRounds_eq_insertionSort (xs : List Nat) :
    iterRounds 0 xs.length xs = xs.insertionSort (· ≤ ·) :=
  List.eq_of_perm_of_sorted
    ((iterRounds_perm _ _ _).trans (List.perm_insertionSort (· ≤ ·) xs).symm)
    (iterRounds_sorted xs) (List.sorted_insertionSort (· ≤ ·) xs)

theorem roundLog_link (flag : Nat) (u v : List Nat) (h : u.length = v.length) :
    (roundLog flag u).map Event.link = (roundLog flag v).map Event.link := by
  have hA : ∀ r, (evA flag u r).map Event.link = (evA flag v r).map Event.link := by
    intro r
    simp only [evA, h]
    split <;> split <;> rfl
  have hB : ∀ r, (evB flag u r).map Event.link = (evB flag v r).map Event.link := by
    intro r
    simp only [evB, h]
    split <;> split <;> rfl
  simp only [roundLog, List.map_append, List.map_flatMap, hA, hB, h]

theorem iterLog_link : ∀ (k i : Nat) (u v : List Nat), u.length = v.length →
    (iterLog i k u).map Event.link = (iterLog i k v).map Event.link := by
  intro k
  induction k with
  | zero => intro i u v _; rfl
  | succ k ih =>
    intro i u v h
    simp only [iterLog, List.map_append]
    rw [roundLog_link _ u v h,
      ih (i + 1) (roundList (i % 2) u) (roundList (i % 2) v)
        (by rw [roundList_length, roundList_length, h])]

/-- A run of the loop that ends has gone through exactly `k` rounds, numbered
`i, i+1, ..., i+k-1`, one after the other. -/
theorem sort_loop_trace : ∀ (k i : Nat) (w w' : World), sort_loop i k w = some w' →
    ∃ ws : List World, ws.length = k + 1 ∧ ws[0]? = some w ∧ ws[k]? = some w' ∧
      ∀ j, j < k → ∃ a b, ws[j]? = some a ∧ ws[j + 1]? = some b ∧
        sort_round (i + j) a = some b := by
  intro k
  induction k with
  | zero =>
    intro i w w' h
    simp only [sort_loop, Option.some.injEq] at h
    subst h
    exact ⟨[w], rfl, by simp, by simp, fun j hj => absurd hj (by omega)⟩
  | succ k ih =>
    intro i w w' h
    simp only [sort_loop] at h
    rcases hu : sort_round i w with _ | u
    · rw [hu] at h; exact Option.noConfusion h
    · rw [hu] at h
      obtain ⟨ws, hlen, h0, hk, hstep⟩ := ih (i + 1) u w' h
      refine ⟨w :: ws, by simp [hlen], by simp, by simpa using hk, ?_⟩
      intro j hj
      cases j with
      | zero => exact ⟨w, u, by simp, by simpa using h0, by simpa using hu⟩
      | succ j =>
        obtain ⟨a, b, ha, hb, hab⟩ := hstep j (by omega)
        refine ⟨a, b, by simpa using ha, by simpa using hb, ?_⟩
        have e : i + (j + 1) = i + 1 + j := by omega
        rw [e]; exact hab

theorem evA_inside (flag : Nat) (v : List Nat) (r : Nat) (hr : r < v.length) :
    ∀ e ∈ evA flag v r, Event.inside v.length e := by
  intro e he
  unfold evA at he
  split at he
  · split at he
    · simp only [List.mem_singleton] at he
      subst he
      simp only [Event.inside, Event.link]
      omega
    · simp at he
  · split at he
    · simp only [List.mem_singleton] at he
      subst he
      simp only [Event.inside, Event.link]
      omega
    · simp at he

theorem evB_inside (flag : Nat) (v : List Nat) (r : Nat) (hr : r < v.length) :
    ∀ e ∈ evB flag v r, Event.inside v.length e := by
  intro e he
  unfold evB at he
  split at he
  · split at he
    · simp only [List.mem_singleton] at he
      subst he
      simp only [Event.inside, Event.link]
      omega
    · simp at he
  · split at he
    · simp only [List.mem_singleton] at he
      subst he
      simp only [Event.inside, Event.link]
      omega
    · simp at he

theorem roundLog_inside (flag : Nat) (v : List Nat) :
    ∀ e ∈ roundLog flag v, Event.inside v.length e := by
  intro e he
  simp only [roundLog, List.mem_append, List.mem_flatMap, List.mem_reverse,
    List.mem_range] at he
  rcases he with ⟨r, hr, h⟩ | ⟨r, hr, h⟩
  · exact evA_inside flag v r hr e h
  · exact evB_inside flag v r hr e h

theorem iterLog_inside : ∀ (k i : Nat) (v : List Nat),
    ∀ e ∈ iterLog i k v, Event.inside v.length e := by
  intro k
  induction k with
  | zero => intro i v e he; simp [iterLog] at he
  | succ k ih =>
    intro i v e he
    simp only [iterLog, List.mem_append] at he
    rcases he with h | h
    · exact roundLog_inside _ v e h
    · have := ih (i + 1) (roundList (i % 2) v) e h
      rwa [roundList_length] at this

/-! ## Which call a function issues -/

theorem send_recieve_sendsTo (a : Proc) (rank size flag : Nat) (d : Int) :
    (send_recieve a rank size flag).sendsTo d = true ↔
      rank % 2 = flag ∧ rank + 1 < size ∧ d = (rank : Int) + 1 := by
  by_cases hpar : rank % 2 = flag
  · by_cases hlast : ((rank : Int) + 1 ≥ (size : Int))
    · simp only [send_recieve, hpar, hlast, if_true, Comm.sendsTo, Bool.false_eq_true,
        true_and, false_iff]
      omega
    · simp only [send_recieve, hpar, hlast, if_true, if_false, Comm.sendsTo,
        decide_eq_true_eq, true_and]
      omega
  · by_cases hzero : ((rank : Int) - 1 < 0)
    · simp [send_recieve, hpar, hzero, Comm.sendsTo]
    · simp [send_recieve, hpar, hzero, Comm.sendsTo]

theorem send_recieve_recvsFrom (a : Proc) (rank size flag : Nat) (s : Int) :
    (send_recieve a rank size flag).recvsFrom s = true ↔
      rank % 2 ≠ flag ∧ 1 ≤ rank ∧ s = (rank : Int) - 1 := by
  by_cases hpar : rank % 2 = flag
  · by_cases hlast : ((rank : Int) + 1 ≥ (size : Int))
    · simp [send_recieve, hpar, hlast, Comm.recvsFrom]
    · simp [send_recieve, hpar, hlast, Comm.recvsFrom]
  · by_cases hzero : ((rank : Int) - 1 < 0)
    · simp only [send_recieve, hpar, hzero, if_true, if_false, Comm.recvsFrom,
        Bool.false_eq_true, ne_eq, not_false_eq_true, true_and, false_iff]
      omega
    · simp only [send_recieve, hpar, hzero, if_false, Comm.recvsFrom, decide_eq_true_eq,
        ne_eq, not_false_eq_true, true_and]
      omega

theorem swap_numbers_sendsTo (a : Proc) (rank size flag : Nat) (d : Int) :
    (swap_numbers a rank size flag).sendsTo d = true ↔
      rank % 2 ≠ flag ∧ 1 ≤ rank ∧ a.recieved_number ≠ none ∧ d = (rank : Int) - 1 := by
  by_cases hpar : rank % 2 = flag
  · by_cases hlast : ((rank : Int) + 1 ≥ (size : Int))
    · simp [swap_numbers, hpar, hlast, Comm.sendsTo]
    · simp [swap_numbers, hpar, hlast, Comm.sendsTo]
  · by_cases hzero : ((rank : Int) - 1 < 0)
    · simp only [swap_numbers, hpar, hzero, if_true, Comm.sendsTo, ne_eq,
        not_false_eq_true, Bool.false_eq_true, true_and, false_iff]
      omega
    · obtain ⟨my, rc⟩ := a
      cases rc with
      | none => simp [swap_numbers, hpar, hzero, Comm.sendsTo]
      | some b =>
        by_cases hgt : b > my
        · simp only [swap_numbers, hpar, hzero, hgt, if_true, if_false, Comm.sendsTo,
            ne_eq, not_false_eq_true, decide_eq_true_eq, true_and, reduceCtorEq]
          omega
        · simp only [swap_numbers, hpar, hzero, hgt, if_true, if_false, Comm.sendsTo,
            ne_eq, not_false_eq_true, decide_eq_true_eq, true_and, reduceCtorEq]
          omega

theorem swap_numbers_recvsFrom (a : Proc) (rank size flag : Nat) (s : Int) :
    (swap_numbers a rank size flag).recvsFrom s = true ↔
      rank % 2 = flag ∧ rank + 1 < size ∧ s = (rank : Int) + 1 := by
  by_cases hpar : rank % 2 = flag
  · by_cases hlast : ((rank : Int) + 1 ≥ (size : Int))
    · simp only [swap_numbers, hpar, hlast, if_true, ne_eq, not_true_eq_false, if_false,
        Comm.recvsFrom, Bool.false_eq_true, true_and, false_iff]
      omega
    · simp only [swap_numbers, hpar, hlast, if_true, ne_eq, not_true_eq_false, if_false,
        Comm.recvsFrom, decide_eq_true_eq, true_and]
      omega
  · by_cases hzero : ((rank : Int) - 1 < 0)
    · simp [swap_numbers, hpar, hzero, Comm.recvsFrom]
    · obtain ⟨my, rc⟩ := a
      cases rc with
      | none => simp [swap_numbers, hpar, hzero, Comm.recvsFrom]
      | some b =>
        by_cases hgt : b > my
        · simp [swap_numbers, hpar, hzero, hgt, Comm.recvsFrom]
        · simp [swap_numbers, hpar, hzero, hgt, Comm.recvsFrom]

/-! ## Locals of a rank while other ranks run -/

theorem exec_other (c : Comm) (rank r : Nat) (w u : World) (h : exec c rank w = some u)
    (hr : r ≠ rank) : u.procs[r]? = w.procs[r]? := by
  have hne : ¬ (rank = r) := fun e => hr e.symm
  cases c with
  | done p =>
    simp only [exec, Option.some.injEq] at h
    subst h
    simp only [List.getElem?_set, hne, if_false]
  | send dest val p =>
    simp only [exec] at h
    split at h
    · simp only [Option.some.injEq] at h
      subst h
      simp only [List.getElem?_set, hne, if_false]
    · exact Option.noConfusion h
  | recv source k =>
    simp only [exec] at h
    split at h
    · split at h
      · exact Option.noConfusion h
      · simp only [Option.some.injEq] at h
        subst h
        simp only [List.getElem?_set, hne, if_false]
    · exact Option.noConfusion h
  | undefined => exact Option.noConfusion h

theorem call_other (f : Proc → Nat → Nat → Nat → Comm) (flag rank r : Nat) (w u : World)
    (h : call f flag rank w = some u) (hr : r ≠ rank) : u.procs[r]? = w.procs[r]? := by
  unfold call at h
  split at h
  · exact Option.noConfusion h
  · exact exec_other _ rank r w u h hr

theorem phase_other (f : Proc → Nat → Nat → Nat → Comm) (flag r : Nat) :
    ∀ (rs : List Nat) (w u : World), phase f flag rs w = some u → r ∉ rs →
      u.procs[r]? = w.procs[r]? := by
  intro rs
  induction rs with
  | nil =>
    intro w u h _
    simp only [phase, Option.some.injEq] at h
    rw [h]
  | cons x rs ih =>
    intro w u h hr
    simp only [phase] at h
    rcases hx : call f flag x w with _ | m
    · rw [hx] at h; exact Option.noConfusion h
    · rw [hx] at h
      have h1 : r ≠ x := fun e => hr (by simp [e])
      have h2 : r ∉ rs := fun e => hr (by simp [e])
      rw [ih m u h h2, call_other f flag x r w m hx h1]

theorem phase_append (f : Proc → Nat → Nat → Nat → Comm) (flag : Nat) :
    ∀ (xs ys : List Nat) (w : World),
      phase f flag (xs ++ ys) w = (phase f flag xs w).bind (phase f flag ys) := by
  intro xs
  induction xs with
  | nil => intro ys w; rfl
  | cons x xs ih =>
    intro ys w
    simp only [List.cons_append, phase]
    rcases call f flag x w with _ | m
    · rfl
    · simp only [Option.bind_eq_bind, Option.some_bind]
      exact ih ys m

/-- Both halves of a round end; after `send_recieve` every rank holds its value of the
start of the round and its receive buffer is `roundRecv`. -/
theorem round_phases (i : Nat) (ps : List Proc) (lg : List Event) :
    ∃ w1 w2, phase send_recieve (i % 2) (List.range ps.length) ⟨ps, [], lg⟩ = some w1 ∧
      phase swap_numbers (i % 2) (List.range ps.length).reverse w1 = some w2 ∧
      sort_round i ⟨ps, [], lg⟩ = some w2 ∧
      w1.log = lg ++ (List.range ps.length).flatMap (evA (i % 2) (vals ps)) ∧
      ∀ (r : Nat) (p : Proc), ps[r]? = some p → w1.procs[r]? =
        some (Proc.mk p.my_number (roundRecv (i % 2) (vals ps) r p.recieved_number)) := by
  have hf : i % 2 < 2 := Nat.mod_lt _ (by decide)
  obtain ⟨w1, hw1, hA⟩ := phaseA_spec (i % 2) hf ps lg
  obtain ⟨w2, hw2, _⟩ := phaseB_spec (i % 2) hf ps lg w1 hA
  rw [hA.len] at hw2
  refine ⟨w1, w2, hw1, hw2, ?_, hA.log, ?_⟩
  · simp only [sort_round, hw1, Option.bind_eq_bind, Option.some_bind, hA.len]
    exact hw2
  · intro r p hp
    have hlt : r < ps.length := by
      by_contra hc
      rw [List.getElem?_eq_none (Nat.le_of_not_lt hc)] at hp
      exact Option.noConfusion hp
    rw [hA.procs r, hp]
    simp [hlt]

theorem partner_iff (c : Comm) (d : Int) :
    c.partner = some d ↔ c.sendsTo d = true ∨ c.recvsFrom d = true := by
  cases c <;> simp [Comm.partner, Comm.sendsTo, Comm.recvsFrom]

theorem swap_numbers_responder (rank size flag a b : Nat) (h1 : 1 ≤ rank)
    (h2 : rank % 2 ≠ flag) :
    swap_numbers ⟨a, some b⟩ rank size flag =
      Comm.send ((rank : Int) - 1) (min a b) ⟨max a b, some b⟩ := by
  have h3 : ¬ ((rank : Int) - 1 < 0) := by omega
  simp only [swap_numbers, h2, h3, ne_eq, not_false_eq_true, if_true, if_false]
  by_cases hgt : b > a
  · simp only [hgt, if_true]
    rw [Nat.min_eq_left (by omega), Nat.max_eq_right (by omega)]
  · simp only [hgt, if_false]
    rw [Nat.min_eq_right (by omega), Nat.max_eq_left (by omega)]

theorem scatter_uninitialised (xs : List Nat) (size : Nat) (ps0 : List Proc)
    (h : MPI_Scatter xs size = some ps0) : ∀ p ∈ ps0, p.recieved_number = none := by
  unfold MPI_Scatter at h
  split at h
  · simp only [Option.some.injEq] at h
    subst h
    intro p hp
    simp only [List.mem_map] at hp
    obtain ⟨x, _, rfl⟩ := hp
    rfl
  · exact Option.noConfusion h

/-- With at least `size` numbers in the file, `main` is the scatter, then the loop of
exactly `size` rounds on the scattered values, then the gather of what the loop leaves. -/
theorem main_run (xs : List Nat) (size : Nat) (h : size ≤ xs.length) :
    ∃ w, sort_loop 0 size ⟨(xs.take size).map (fun x => Proc.mk x none), [], []⟩ = some w ∧
      main (some xs) size = Outcome.finished xs (MPI_Gather w.procs xs) w.log ∧
      w.log = iterLog 0 size (xs.take size) ∧
      vals w.procs = iterRounds 0 size (xs.take size) := by
  obtain ⟨qs, hqs, hlen, hvals⟩ :=
    sort_loop_spec size 0 ((xs.take size).map (fun x => Proc.mk x none)) []
  rw [vals_scatter] at hvals hqs
  refine ⟨_, hqs, ?_, by simp, hvals⟩
  simp only [main, load_data, MPI_Scatter, h, if_true, hqs]

theorem first_send_logged (v : List Nat) (k : Nat) (hv : 2 ≤ v.length) :
    Event.sent 0 1 (at_ v 0) ∈ iterLog 0 (k + 1) v := by
  simp only [iterLog, roundLog, List.mem_append, List.mem_flatMap, List.mem_range]
  left; left
  refine ⟨0, by omega, ?_⟩
  have h1 : 0 + 1 < v.length := by omega
  simp only [evA, h1, if_true, at_, List.mem_singleton, Nat.zero_mod]
  rfl

/-! ## Any order of the ranks gives the same values -/

theorem takeMsg_spec (source : Int) (rank : Nat) :
    ∀ (net : List Msg) (x : Nat) (net' : List Msg), takeMsg source rank net = some (x, net') →
      ∃ pre m post, net = pre ++ m :: post ∧ net' = pre ++ post ∧
        m.src = source ∧ m.dst = (rank : Int) ∧ m.val = x := by
  intro net
  induction net with
  | nil => intro x net' h; exact Option.noConfusion h
  | cons a rest ih =>
    intro x net' h
    simp only [takeMsg] at h
    by_cases hc : a.src = source ∧ a.dst = (rank : Int)
    · rw [if_pos hc] at h
      simp only [Option.some.injEq, Prod.mk.injEq] at h
      exact ⟨[], a, rest, rfl, h.2.symm, hc.1, hc.2, h.1⟩
    · rw [if_neg hc] at h
      rcases ht : takeMsg source rank rest with _ | ⟨y, rest'⟩
      · rw [ht] at h; exact Option.noConfusion h
      · rw [ht] at h
        simp only [Option.map_some', Option.some.injEq, Prod.mk.injEq] at h
        obtain ⟨pre, m, post, h1, h2, h3, h4, h5⟩ := ih y rest' ht
        refine ⟨a :: pre, m, post, by rw [h1]; rfl, ?_, h3, h4, ?_⟩
        · rw [← h.2, h2]; rfl
        · rw [h5]; exact h.1

theorem call_some (f : Proc → Nat → Nat → Nat → Comm) (flag r : Nat) (w w' : World)
    (h : call f flag r w = some w') :
    ∃ p, w.procs[r]? = some p ∧ exec (f p r w.procs.length flag) r w = some w' := by
  unfold call at h
  split at h
  · exact Option.noConfusion h
  · rename_i p hp
    exact ⟨p, hp, h⟩

theorem exec_done (p : Proc) (r : Nat) (w w' : World) (h : exec (Comm.done p) r w = some w') :
    w'.procs = w.procs.set r p ∧ w'.net = w.net ∧ w'.log = w.log := by
  simp only [exec, Option.some.injEq] at h
  subst h
  exact ⟨rfl, rfl, rfl⟩

theorem exec_send (d : Int) (v : Nat) (p : Proc) (r : Nat) (w w' : World)
    (h : exec (Comm.send d v p) r w = some w') :
    w'.procs = w.procs.set r p ∧ w'.net = w.net ++ [⟨(r : Int), d, v⟩] := by
  simp only [exec] at h
  split at h
  · simp only [Option.some.injEq] at h
    subst h
    exact ⟨rfl, rfl⟩
  · exact Option.noConfusion h

theorem exec_recv (src : Int) (k : Nat → Proc) (r : Nat) (w w' : World)
    (h : exec (Comm.recv src k) r w = some w') :
    ∃ x net', takeMsg src r w.net = some (x, net') ∧ w'.procs = w.procs.set r (k x) ∧
      w'.net = net' := by
  simp only [exec] at h
  split at h
  · split at h
    · exact Option.noConfusion h
    · rename_i x net' ht
      simp only [Option.some.injEq] at h
      subst h
      exact ⟨x, net', ht, rfl, rfl⟩
  · exact Option.noConfusion h

theorem iterRounds_succ : ∀ (k i : Nat) (v : List Nat),
    iterRounds i (k + 1) v = roundList ((i + k) % 2) (iterRounds i k v) := by
  intro k
  induction k with
  | zero => intro i v; rfl
  | succ k ih =>
    intro i v
    have e : i + (k + 1) = i + 1 + k := by omega
    rw [e]
    conv_lhs => rw [iterRounds]
    rw [ih (i + 1) (roundList (i % 2) v)]
    rfl

theorem valAt_succ (xs : List Nat) (i r : Nat) (hr : r < xs.length) :
    valAt xs (i + 1) r =
      if r % 2 = i % 2 then
        if r + 1 < xs.length then min (valAt xs i r) (valAt xs i (r + 1)) else valAt xs i r
      else
        if 1 ≤ r then max (valAt xs i (r - 1)) (valAt xs i r) else valAt xs i r := by
  unfold valAt
  rw [iterRounds_succ, at_roundList _ _ _ (by rw [iterRounds_length]; exact hr)]
  simp only [roundVal, iterRounds_length, Nat.zero_add, at_]

theorem msgOK_step (xs : List Nat) (pc : Nat → Nat) (r k : Nat) (m : Msg) (hk : pc r = k)
    (h : MsgOK xs pc m)
    (hnot : ¬ (m.dst = (r : Int) ∧
      ((k % 2 = 0 ∧ m.src = (r : Int) - 1 ∧ r % 2 ≠ (k / 2) % 2) ∨
        (k % 2 = 1 ∧ m.src = (r : Int) + 1 ∧ r % 2 = (k / 2) % 2)))) :
    MsgOK xs (Function.update pc r (k + 1)) m := by
  obtain ⟨r0, i, hlt, hpar, hcase⟩ := h
  refine ⟨r0, i, hlt, hpar, ?_⟩
  simp only [Function.update_apply]
  rcases hcase with ⟨h1, h2, h3, h4, h5⟩ | ⟨h1, h2, h3, h4, h5⟩
  · left
    refine ⟨h1, h2, h3, ?_, ?_⟩
    · split
      · rename_i e; subst e; omega
      · exact h4
    · split
      · rename_i e
        rw [e, hk] at h5
        by_contra hc
        apply hnot
        refine ⟨by omega, Or.inl ⟨by omega, by omega, by omega⟩⟩
      · exact h5
  · right
    refine ⟨h1, h2, h3, ?_, ?_⟩
    · split
      · rename_i e; rw [e] at h4; omega
      · exact h4
    · split
      · rename_i e
        subst e
        by_contra hc
        apply hnot
        refine ⟨by omega, Or.inr ⟨by omega, by omega, by omega⟩⟩
      · exact h5

theorem good_step (xs : List Nat) (s s' : Sys) (r k : Nat) (p' : Proc)
    (hG : Good xs s) (hr : r < xs.length) (hk : s.pc r = k) (hk2 : k < 2 * xs.length)
    (hpc : s'.pc = Function.update s.pc r (k + 1))
    (hprocs : s'.world.procs = s.world.procs.set r p')
    (hown : p'.my_number = valAt xs ((k + 1) / 2) r)
    (hbuf : k % 2 = 0 → r % 2 ≠ (k / 2) % 2 → 1 ≤ r →
      p'.recieved_number = some (valAt xs (k / 2) (r - 1)) ∧ k + 1 ≤ s.pc (r - 1))
    (hF2 : k % 2 = 1 → r % 2 = (k / 2) % 2 → r + 1 < xs.length → k + 1 ≤ s.pc (r + 1))
    (hnet : ∀ m ∈ s'.world.net, MsgOK xs s'.pc m)
    (hchan : (s'.world.net.map (fun m => (m.src, m.dst))).Nodup) : Good xs s' := by
  have hself : s'.world.procs[r]? = some p' := by
    rw [hprocs, List.getElem?_set]
    simp [hG.len, hr]
  have hother : ∀ r', r' ≠ r → s'.world.procs[r']? = s.world.procs[r']? := by
    intro r' hne
    rw [hprocs, List.getElem?_set]
    simp [Ne.symm hne]
  refine ⟨?_, ?_, ?_, ?_, ?_, ?_, hnet, hchan⟩
  · rw [hprocs, List.length_set]; exact hG.len
  · intro r' hr'
    rw [hpc, Function.update_apply]
    split
    · omega
    · exact hG.bound r' hr'
  · intro r' p hp
    rw [hpc, Function.update_apply]
    by_cases e : r' = r
    · subst e
      rw [hself] at hp
      simp only [Option.some.injEq] at hp
      subst hp
      simp only [if_true]
      exact hown
    · rw [hother r' e] at hp
      simp only [e, if_false]
      exact hG.own r' p hp
  · intro r' p hp
    rw [hpc, Function.update_apply]
    by_cases e : r' = r
    · subst e
      rw [hself] at hp
      simp only [Option.some.injEq] at hp
      subst hp
      simp only [if_true]
      intro h1 h2 h3
      have e2 : (k + 1) / 2 = k / 2 := by omega
      rw [e2] at h2 ⊢
      exact (hbuf (by omega) h2 h3).1
    · rw [hother r' e] at hp
      simp only [e, if_false]
      exact hG.buf r' p hp
  · intro r0 i hlt hpar
    rw [hpc]
    simp only [Function.update_apply]
    have hold := hG.causeFwd r0 i hlt hpar
    by_cases e1 : r0 + 1 = r
    · have e2 : ¬ (r0 = r) := by omega
      simp only [e1, e2, if_true, if_false]
      intro h1
      by_cases h3 : 2 * i + 1 ≤ k
      · apply hold; rw [e1, hk]; exact h3
      · have h4 := (hbuf (by omega) (by omega) (by omega)).2
        have e3 : r - 1 = r0 := by omega
        rw [e3] at h4
        omega
    · simp only [e1, if_false]
      intro h1
      have := hold h1
      split
      · rename_i e; rw [e, hk] at this; omega
      · exact this
  · intro r0 i hlt hpar
    rw [hpc]
    simp only [Function.update_apply]
    have hold := hG.causeBwd r0 i hlt hpar
    by_cases e1 : r0 = r
    · have e2 : ¬ (r0 + 1 = r) := by omega
      simp only [e1, if_true]
      have e3 : ¬ (r + 1 = r) := by omega
      simp only [e3, if_false]
      intro h1
      by_cases h3 : 2 * i + 2 ≤ k
      · rw [e1, hk] at hold; exact hold h3
      · have h4 := hF2 (by omega) (by omega) (by omega)
        omega
    · simp only [e1, if_false]
      intro h1
      have := hold h1
      split
      · rename_i e; rw [e, hk] at this; omega
      · exact this

theorem chan_middle (pre post : List Msg) (m0 : Msg)
    (h : ((pre ++ m0 :: post).map (fun m => (m.src, m.dst))).Nodup) :
    ((pre ++ post).map (fun m => (m.src, m.dst))).Nodup ∧
      ∀ m ∈ pre ++ post, ¬ (m.src = m0.src ∧ m.dst = m0.dst) := by
  rw [List.map_append, List.map_cons, List.nodup_middle, List.nodup_cons] at h
  rw [List.map_append]
  refine ⟨h.2, ?_⟩
  intro m hm hc
  apply h.1
  rw [← List.map_append]
  exact List.mem_map.2 ⟨m, hm, by rw [hc.1, hc.2]⟩

theorem chan_snoc (net : List Msg) (m0 : Msg)
    (h : (net.map (fun m => (m.src, m.dst))).Nodup)
    (hnew : ∀ m ∈ net, ¬ (m.src = m0.src ∧ m.dst = m0.dst)) :
    ((net ++ [m0]).map (fun m => (m.src, m.dst))).Nodup := by
  rw [List.map_append, List.nodup_append]
  refine ⟨h, by simp, ?_⟩
  intro c hc hc'
  simp only [List.map_cons, List.map_nil, List.mem_singleton] at hc'
  obtain ⟨m, hm, hmc⟩ := List.mem_map.1 hc
  rw [hc'] at hmc
  simp only [Prod.mk.injEq] at hmc
  exact hnew m hm hmc

/-- A call of `send_recieve` by rank `r`, in its round `i`, keeps `Good`. -/
theorem step_even_good (xs : List Nat) (s : Sys) (r i : Nat) (p : Proc) (w' : World)
    (hG : Good xs s) (hr : r < xs.length) (hk : s.pc r = 2 * i) (hi : i < xs.length)
    (hp : s.world.procs[r]? = some p)
    (hex : exec (send_recieve p r s.world.procs.length (i % 2)) r s.world = some w') :
    Good xs ⟨w', Function.update s.pc r (2 * i + 1)⟩ := by
  have hmy : p.my_number = valAt xs i r := by
    have h := hG.own r p hp
    have e : 2 * i / 2 = i := by omega
    rw [hk, e] at h
    exact h
  have e1 : (2 * i + 1) / 2 = i := by omega
  have e2 : 2 * i / 2 = i := by omega
  rw [hG.len] at hex
  by_cases hpar : r % 2 = i % 2
  · by_cases hlast : ((r : Int) + 1 ≥ (xs.length : Int))
    · simp only [send_recieve, hpar, hlast, if_true] at hex
      obtain ⟨h1, h2, _⟩ := exec_done _ _ _ _ hex
      refine good_step xs s _ r (2 * i) p hG hr hk (by omega) rfl h1 ?_ ?_ ?_ ?_ ?_
      · rw [e1]; exact hmy
      · intro _ h; rw [e2] at h; exact absurd hpar h
      · intro h; omega
      · intro m hm
        rw [h2] at hm
        refine msgOK_step xs s.pc r (2 * i) m hk (hG.msgs m hm) ?_
        rintro ⟨_, ⟨_, _, h⟩ | ⟨h, _, _⟩⟩
        · rw [e2] at h; exact h hpar
        · omega
      · show (w'.net.map _).Nodup
        rw [h2]; exact hG.chan
    · simp only [send_recieve, hpar, hlast, if_true, if_false] at hex
      obtain ⟨h1, h2⟩ := exec_send _ _ _ _ _ _ hex
      have hnext : s.pc (r + 1) ≤ 2 * i := by
        by_contra hc
        have := hG.causeFwd r i (by omega) hpar (by omega)
        omega
      refine good_step xs s _ r (2 * i) p hG hr hk (by omega) rfl h1 ?_ ?_ ?_ ?_ ?_
      · rw [e1]; exact hmy
      · intro _ h; rw [e2] at h; exact absurd hpar h
      · intro h; omega
      · intro m hm
        have hm' : m ∈ s.world.net ++ [⟨(r : Int), (r : Int) + 1, p.my_number⟩] := by
          rw [← h2]; exact hm
        rcases List.mem_append.1 hm' with hold | hnew
        · refine msgOK_step xs s.pc r (2 * i) m hk (hG.msgs m hold) ?_
          rintro ⟨_, ⟨_, _, h⟩ | ⟨h, _, _⟩⟩
          · rw [e2] at h; exact h hpar
          · omega
        · simp only [List.mem_singleton] at hnew
          subst hnew
          refine ⟨r, i, by omega, hpar, Or.inl ⟨rfl, rfl, hmy, ?_, ?_⟩⟩
          · show 2 * i + 1 ≤ Function.update s.pc r (2 * i + 1) r
            simp
          · show Function.update s.pc r (2 * i + 1) (r + 1) ≤ 2 * i
            simp [Function.update_apply]
            exact hnext
      · show (w'.net.map _).Nodup
        rw [h2]
        apply chan_snoc _ _ hG.chan
        intro m hm hc
        simp only at hc
        obtain ⟨r0, i', hlt, hpar', hcase⟩ := hG.msgs m hm
        rcases hcase with ⟨c1, c2, c3, c4, c5⟩ | ⟨c1, c2, c3, c4, c5⟩
        · have e0 : r0 = r := by omega
          subst e0
          have := hG.causeBwd r0 i' hlt hpar' (by omega)
          omega
        · omega
  · by_cases hzero : ((r : Int) - 1 < 0)
    · simp only [send_recieve, hpar, hzero, if_true, if_false] at hex
      obtain ⟨h1, h2, _⟩ := exec_done _ _ _ _ hex
      refine good_step xs s _ r (2 * i) p hG hr hk (by omega) rfl h1 ?_ ?_ ?_ ?_ ?_
      · rw [e1]; exact hmy
      · intro _ _ h; omega
      · intro h; omega
      · intro m hm
        rw [h2] at hm
        refine msgOK_step xs s.pc r (2 * i) m hk (hG.msgs m hm) ?_
        obtain ⟨r0, i', hlt, hpar', hcase⟩ := hG.msgs m hm
        rintro ⟨_, ⟨_, h, _⟩ | ⟨h, _, _⟩⟩
        · rcases hcase with ⟨c1, _⟩ | ⟨c1, _⟩ <;> omega
        · omega
      · show (w'.net.map _).Nodup
        rw [h2]; exact hG.chan
    · simp only [send_recieve, hpar, hzero, if_false] at hex
      obtain ⟨x, net', ht, h1, h2⟩ := exec_recv _ _ _ _ _ hex
      obtain ⟨pre, m0, post, hnet, hnet', hs, hd, hv⟩ := takeMsg_spec _ _ _ _ _ ht
      have hm0 : m0 ∈ s.world.net := by rw [hnet]; simp
      have hch := hG.chan
      rw [hnet] at hch
      obtain ⟨hnd, hno⟩ := chan_middle pre post m0 hch
      have key : x = valAt xs i (r - 1) ∧ 2 * i + 1 ≤ s.pc (r - 1) := by
        obtain ⟨r0, i', hlt, hpar', hcase⟩ := hG.msgs m0 hm0
        rcases hcase with ⟨c1, c2, c3, c4, c5⟩ | ⟨c1, c2, c3, c4, c5⟩
        · have e0 : r0 = r - 1 := by omega
          subst e0
          have e3 : r - 1 + 1 = r := by omega
          rw [e3, hk] at c5
          have hb := hG.causeBwd (r - 1) i (by omega) (by omega)
          rw [e3, hk] at hb
          have hii : i' = i := by
            by_contra hne
            have h5 : 2 * i + 2 ≤ s.pc (r - 1) := by omega
            have := hb h5
            omega
          subst hii
          exact ⟨by rw [← hv, c3], c4⟩
        · exfalso; omega
      refine good_step xs s _ r (2 * i) { p with recieved_number := some x } hG hr hk
        (by omega) rfl h1 ?_ ?_ ?_ ?_ ?_
      · rw [e1]; exact hmy
      · intro _ _ _
        rw [e2]
        exact ⟨by rw [key.1], key.2⟩
      · intro h; omega
      · intro m hm
        have hm' : m ∈ pre ++ post := by rw [← hnet', ← h2]; exact hm
        have hold : m ∈ s.world.net := by
          rw [hnet]
          rcases List.mem_append.1 hm' with h | h
          · exact List.mem_append_left _ h
          · exact List.mem_append_right _ (List.mem_cons_of_mem _ h)
        refine msgOK_step xs s.pc r (2 * i) m hk (hG.msgs m hold) ?_
        rintro ⟨hd', ⟨_, hs', _⟩ | ⟨h, _, _⟩⟩
        · exact hno m hm' ⟨by rw [hs, hs'], by rw [hd, hd']⟩
        · omega
      · show (w'.net.map _).Nodup
        rw [h2, hnet']; exact hnd

/-- A call of `swap_numbers` by rank `r`, in its round `i`, keeps `Good`. -/
theorem step_odd_good (xs : List Nat) (s : Sys) (r i : Nat) (p : Proc) (w' : World)
    (hG : Good xs s) (hr : r < xs.length) (hk : s.pc r = 2 * i + 1) (hi : i < xs.length)
    (hp : s.world.procs[r]? = some p)
    (hex : exec (swap_numbers p r s.world.procs.length (i % 2)) r s.world = some w') :
    Good xs ⟨w', Function.update s.pc r (2 * i + 1 + 1)⟩ := by
  have e1 : (2 * i + 1) / 2 = i := by omega
  have e2 : (2 * i + 1 + 1) / 2 = i + 1 := by omega
  have hmy : p.my_number = valAt xs i r := by
    have h := hG.own r p hp
    rw [hk, e1] at h
    exact h
  rw [hG.len] at hex
  by_cases hpar : r % 2 = i % 2
  · by_cases hlast : ((r : Int) + 1 ≥ (xs.length : Int))
    · simp only [swap_numbers, hpar, hlast, if_true, ne_eq, not_true_eq_false,
        if_false] at hex
      obtain ⟨h1, h2, _⟩ := exec_done _ _ _ _ hex
      have hl : ¬ (r + 1 < xs.length) := by omega
      refine good_step xs s _ r (2 * i + 1) p hG hr hk (by omega) rfl h1 ?_ ?_ ?_ ?_ ?_
      · rw [e2, valAt_succ xs i r hr]
        simp only [hpar, hl, if_true, if_false]
        exact hmy
      · intro h; omega
      · intro _ _ h; omega
      · intro m hm
        rw [h2] at hm
        refine msgOK_step xs s.pc r (2 * i + 1) m hk (hG.msgs m hm) ?_
        obtain ⟨r0, i', hlt, hpar', hcase⟩ := hG.msgs m hm
        rintro ⟨_, ⟨h, _, _⟩ | ⟨_, h, _⟩⟩
        · omega
        · rcases hcase with ⟨c1, c2, _⟩ | ⟨c1, c2, _⟩ <;> omega
      · show (w'.net.map _).Nodup
        rw [h2]; exact hG.chan
    · simp only [swap_numbers, hpar, hlast, if_true, ne_eq, not_true_eq_false,
        if_false] at hex
      obtain ⟨x, net', ht, h1, h2⟩ := exec_recv _ _ _ _ _ hex
      obtain ⟨pre, m0, post, hnet, hnet', hs, hd, hv⟩ := takeMsg_spec _ _ _ _ _ ht
      have hm0 : m0 ∈ s.world.net := by rw [hnet]; simp
      have hch := hG.chan
      rw [hnet] at hch
      obtain ⟨hnd, hno⟩ := chan_middle pre post m0 hch
      have hl : r + 1 < xs.length := by omega
      have key : x = min (valAt xs i r) (valAt xs i (r + 1)) ∧ 2 * i + 2 ≤ s.pc (r + 1) := by
        obtain ⟨r0, i', hlt, hpar', hcase⟩ := hG.msgs m0 hm0
        rcases hcase with ⟨c1, c2, c3, c4, c5⟩ | ⟨c1, c2, c3, c4, c5⟩
        · exfalso; omega
        · have e0 : r0 = r := by omega
          subst e0
          rw [hk] at c5
          have hb := hG.causeFwd r0 i' hlt hpar'
          rw [hk] at hb
          have hii : i' = i := by
            by_contra hne
            have := hb (by omega)
            omega
          subst hii
          exact ⟨by rw [← hv, c3], c4⟩
      refine good_step xs s _ r (2 * i + 1) { p with my_number := x } hG hr hk
        (by omega) rfl h1 ?_ ?_ ?_ ?_ ?_
      · rw [e2, valAt_succ xs i r hr]
        simp only [hpar, hl, if_true]
        exact key.1
      · intro h; omega
      · intro _ _ _; exact key.2
      · intro m hm
        have hm' : m ∈ pre ++ post := by rw [← hnet', ← h2]; exact hm
        have hold : m ∈ s.world.net := by
          rw [hnet]
          rcases List.mem_append.1 hm' with h | h
          · exact List.mem_append_left _ h
          · exact List.mem_append_right _ (List.mem_cons_of_mem _ h)
        refine msgOK_step xs s.pc r (2 * i + 1) m hk (hG.msgs m hold) ?_
        rintro ⟨hd', ⟨h, _, _⟩ | ⟨_, hs', _⟩⟩
        · omega
        · exact hno m hm' ⟨by rw [hs, hs'], by rw [hd, hd']⟩
      · show (w'.net.map _).Nodup
        rw [h2, hnet']; exact hnd
  · by_cases hzero : ((r : Int) - 1 < 0)
    · simp only [swap_numbers, hpar, hzero, if_true, ne_eq, not_false_eq_true] at hex
      obtain ⟨h1, h2, _⟩ := exec_done _ _ _ _ hex
      have hl : ¬ (1 ≤ r) := by omega
      refine good_step xs s _ r (2 * i + 1) p hG hr hk (by omega) rfl h1 ?_ ?_ ?_ ?_ ?_
      · rw [e2, valAt_succ xs i r hr]
        simp only [hpar, hl, if_false]
        exact hmy
      · intro h; omega
      · intro _ h; rw [e1] at h; exact absurd h hpar
      · intro m hm
        rw [h2] at hm
        refine msgOK_step xs s.pc r (2 * i + 1) m hk (hG.msgs m hm) ?_
        rintro ⟨_, ⟨h, _, _⟩ | ⟨_, _, h⟩⟩
        · omega
        · rw [e1] at h; exact hpar h
      · show (w'.net.map _).Nodup
        rw [h2]; exact hG.chan
    · have hr1 : 1 ≤ r := by omega
      have hbuf := hG.buf r p hp (by omega) (by rw [hk, e1]; exact hpar) hr1
      rw [hk, e1] at hbuf
      obtain ⟨a, rc⟩ := p
      simp only at hmy hbuf
      subst hmy
      subst hbuf
      rw [swap_numbers_responder _ _ _ _ _ hr1 hpar] at hex
      obtain ⟨h1, h2⟩ := exec_send _ _ _ _ _ _ hex
      have e3 : r - 1 + 1 = r := by omega
      have hprev : s.pc (r - 1) ≤ 2 * i + 1 := by
        by_contra hc
        have := hG.causeBwd (r - 1) i (by omega) (by omega) (by omega)
        rw [e3] at this
        omega
      refine good_step xs s _ r (2 * i + 1) _ hG hr hk (by omega) rfl h1 ?_ ?_ ?_ ?_ ?_
      · rw [e2, valAt_succ xs i r hr]
        simp only [hpar, hr1, if_true, if_false]
        exact Nat.max_comm _ _
      · intro h; omega
      · intro _ h; rw [e1] at h; exact absurd h hpar
      · intro m hm
        have hm' : m ∈ s.world.net ++
            [⟨(r : Int), (r : Int) - 1, min (valAt xs i r) (valAt xs i (r - 1))⟩] := by
          rw [← h2]; exact hm
        rcases List.mem_append.1 hm' with hold | hnew
        · refine msgOK_step xs s.pc r (2 * i + 1) m hk (hG.msgs m hold) ?_
          rintro ⟨_, ⟨h, _, _⟩ | ⟨_, _, h⟩⟩
          · omega
          · rw [e1] at h; exact hpar h
        · simp only [List.mem_singleton] at hnew
          subst hnew
          refine ⟨r - 1, i, by omega, by omega, Or.inr ⟨?_, ?_, ?_, ?_, ?_⟩⟩
          · show (r : Int) = ((r - 1 : Nat) : Int) + 1
            omega
          · show (r : Int) - 1 = ((r - 1 : Nat) : Int)
            omega
          · show min (valAt xs i r) (valAt xs i (r - 1)) =
              min (valAt xs i (r - 1)) (valAt xs i (r - 1 + 1))
            rw [e3, Nat.min_comm]
          · show 2 * i + 2 ≤ Function.update s.pc r (2 * i + 1 + 1) (r - 1 + 1)
            rw [e3]; simp
          · show Function.update s.pc r (2 * i + 1 + 1) (r - 1) ≤ 2 * i + 1
            have : r - 1 ≠ r := by omega
            simp only [Function.update_apply, this, if_false]
            exact hprev
      · show (w'.net.map _).Nodup
        rw [h2]
        apply chan_snoc _ _ hG.chan
        intro m hm hc
        simp only at hc
        obtain ⟨r0, i', hlt, hpar', hcase⟩ := hG.msgs m hm
        rcases hcase with ⟨c1, c2, c3, c4, c5⟩ | ⟨c1, c2, c3, c4, c5⟩
        · omega
        · have e0 : r0 = r - 1 := by omega
          subst e0
          rw [e3, hk] at c4
          have := hG.causeFwd (r - 1) (i' + 2) hlt (by omega) (by rw [e3, hk]; omega)
          omega

theorem stepRank_some (r : Nat) (s s' : Sys) (h : stepRank r s = some s') :
    s.pc r / 2 < s.world.procs.length ∧
    ∃ w', call (if s.pc r % 2 = 0 then send_recieve else swap_numbers)
        ((s.pc r / 2) % 2) r s.world = some w' ∧
      s' = ⟨w', Function.update s.pc r (s.pc r + 1)⟩ := by
  unfold stepRank at h
  split at h
  · rename_i hlt
    refine ⟨hlt, ?_⟩
    rcases hc : call (if s.pc r % 2 = 0 then send_recieve else swap_numbers)
        ((s.pc r / 2) % 2) r s.world with _ | w'
    · rw [hc] at h; exact Option.noConfusion h
    · rw [hc] at h
      simp only [Option.map_some', Option.some.injEq] at h
      exact ⟨w', rfl, h.symm⟩
  · exact Option.noConfusion h

/-- Every step of every rank keeps `Good`. -/
theorem stepRank_good (xs : List Nat) (r : Nat) (s s' : Sys) (hG : Good xs s)
    (h : stepRank r s = some s') : Good xs s' := by
  obtain ⟨hlt, w', hcall, rfl⟩ := stepRank_some r s s' h
  obtain ⟨p, hp, hex⟩ := call_some _ _ _ _ _ hcall
  have hr : r < xs.length := by
    rw [← hG.len]
    by_contra hc
    rw [List.getElem?_eq_none (Nat.le_of_not_lt hc)] at hp
    exact Option.noConfusion hp
  rw [hG.len] at hlt
  by_cases hev : s.pc r % 2 = 0
  · have hk : s.pc r = 2 * (s.pc r / 2) := by omega
    simp only [hev, if_true] at hex
    have := step_even_good xs s r (s.pc r / 2) p w' hG hr hk hlt hp hex
    rw [← hk] at this
    exact this
  · have hk : s.pc r = 2 * (s.pc r / 2) + 1 := by omega
    simp only [hev, if_false] at hex
    have := step_odd_good xs s r (s.pc r / 2) p w' hG hr hk hlt hp hex
    rw [← hk] at this
    exact this

theorem runSched_good (xs : List Nat) : ∀ (sched : List Nat) (s s' : Sys), Good xs s →
    runSched sched s = some s' → Good xs s' := by
  intro sched
  induction sched with
  | nil =>
    intro s s' hG h
    simp only [runSched, Option.some.injEq] at h
    rw [← h]; exact hG
  | cons r rs ih =>
    intro s s' hG h
    simp only [runSched] at h
    rcases hs : stepRank r s with _ | s1
    · rw [hs] at h; exact Option.noConfusion h
    · rw [hs] at h
      exact ih s1 s' (stepRank_good xs r s s1 hG hs) h

/-- Every step of a rank is one more call of that rank and of no other. -/
theorem runSched_count : ∀ (sched : List Nat) (s s' : Sys), runSched sched s = some s' →
    ∀ r, s'.pc r = s.pc r + sched.count r := by
  intro sched
  induction sched with
  | nil =>
    intro s s' h r
    simp only [runSched, Option.some.injEq] at h
    rw [← h]; simp
  | cons x rs ih =>
    intro s s' h r
    simp only [runSched] at h
    rcases hs : stepRank x s with _ | s1
    · rw [hs] at h; exact Option.noConfusion h
    · rw [hs] at h
      obtain ⟨_, w', _, rfl⟩ := stepRank_some x s s1 hs
      rw [ih _ s' h r, List.count_cons]
      simp only [Function.update_apply]
      by_cases e : r = x
      · subst e; simp; omega
      · have e' : ¬ (x = r) := fun h => e h.symm
        simp [e, e']

theorem good_start (ps : List Proc) (lg : List Event) :
    Good (vals ps) ⟨⟨ps, [], lg⟩, fun _ => 0⟩ := by
  refine ⟨(vals_length ps).symm, fun _ _ => Nat.zero_le _, ?_, ?_, ?_, ?_, ?_, ?_⟩
  · intro r p hp
    simp only [Nat.zero_div, valAt, iterRounds]
    exact (vals_getD ps r p hp).symm
  · intro r p _ h; simp at h
  · intro r i _ _ h; simp at h
  · intro r i _ _ h; simp at h
  · intro m hm; simp at hm
  · simp

/-- Once every rank has left its loop the ranks hold the values of `iterRounds`. -/
theorem good_finished (xs : List Nat) (s : Sys) (hG : Good xs s) (hf : s.finished) :
    s.world.values = iterRounds 0 xs.length xs := by
  apply List.ext_getElem?
  intro r
  by_cases hr : r < xs.length
  · have hr' : r < s.world.procs.length := by rw [hG.len]; exact hr
    have h1 := hf r hr'
    rw [hG.len] at h1
    have h2 := hG.bound r hr
    have hk : s.pc r / 2 = xs.length := by omega
    have hp : s.world.procs[r]? = some (s.world.procs[r]) := List.getElem?_eq_getElem hr'
    have hown := hG.own r _ hp
    rw [hk] at hown
    have hl : r < (iterRounds 0 xs.length xs).length := by rw [iterRounds_length]; exact hr
    simp only [World.values, List.getElem?_map, hp, Option.map_some']
    rw [hown, List.getElem?_eq_getElem hl]
    unfold valAt at_
    rw [List.getD_eq_getElem _ _ hl]
  · have h1 : s.world.values.length ≤ r := by
      simp only [World.values, List.length_map, hG.len]; omega
    have h2 : (iterRounds 0 xs.length xs).length ≤ r := by
      rw [iterRounds_length]; omega
    rw [List.getElem?_eq_none h1, List.getElem?_eq_none h2]

/-! ## The order of `sort_loop` is one of the orders of `runSched` -/

theorem exec_length (c : Comm) (r : Nat) (w w' : World) (h : exec c r w = some w') :
    w'.procs.length = w.procs.length := by
  cases c with
  | done p => rw [(exec_done _ _ _ _ h).1, List.length_set]
  | send d v p => rw [(exec_send _ _ _ _ _ _ h).1, List.length_set]
  | recv src k =>
    obtain ⟨x, net', _, h1, _⟩ := exec_recv _ _ _ _ _ h
    rw [h1, List.length_set]
  | undefined => exact Option.noConfusion h

theorem call_length (f : Proc → Nat → Nat → Nat → Comm) (flag r : Nat) (w w' : World)
    (h : call f flag r w = some w') : w'.procs.length = w.procs.length := by
  obtain ⟨p, _, hex⟩ := call_some _ _ _ _ _ h
  exact exec_length _ _ _ _ hex

theorem phase_length (f : Proc → Nat → Nat → Nat → Comm) (flag : Nat) :
    ∀ (rs : List Nat) (w w' : World), phase f flag rs w = some w' →
      w'.procs.length = w.procs.length := by
  intro rs
  induction rs with
  | nil =>
    intro w w' h
    simp only [phase, Option.some.injEq] at h
    rw [h]
  | cons x rs ih =>
    intro w w' h
    simp only [phase] at h
    rcases hx : call f flag x w with _ | m
    · rw [hx] at h; exact Option.noConfusion h
    · rw [hx] at h
      rw [ih m w' h, call_length f flag x w m hx]

theorem runSched_append : ∀ (a b : List Nat) (s : Sys),
    runSched (a ++ b) s = (runSched a s).bind (runSched b) := by
  intro a
  induction a with
  | nil => intro b s; rfl
  | cons x a ih =>
    intro b s
    simp only [List.cons_append, runSched]
    rcases stepRank x s with _ | s1
    · rfl
    · simp only [Option.bind_eq_bind, Option.some_bind]
      exact ih b s1

/-- Ranks that all stand before the same call of their loop, run one after the other, do
what `phase` does for that call. -/
theorem runSched_phase (k : Nat) : ∀ (rs : List Nat) (s : Sys) (w' : World), rs.Nodup →
    (∀ r ∈ rs, s.pc r = k) → k / 2 < s.world.procs.length →
    phase (if k % 2 = 0 then send_recieve else swap_numbers) ((k / 2) % 2) rs s.world =
      some w' →
    ∃ s', runSched rs s = some s' ∧ s'.world = w' ∧
      ∀ r, s'.pc r = if r ∈ rs then k + 1 else s.pc r := by
  intro rs
  induction rs with
  | nil =>
    intro s w' _ _ _ h
    simp only [phase, Option.some.injEq] at h
    exact ⟨s, rfl, h, fun r => by simp⟩
  | cons x rs ih =>
    intro s w' hnd hpc hlt h
    simp only [phase] at h
    rcases hx : call (if k % 2 = 0 then send_recieve else swap_numbers) ((k / 2) % 2) x
        s.world with _ | w1
    · rw [hx] at h; exact Option.noConfusion h
    · rw [hx] at h
      simp only [Option.bind_eq_bind, Option.some_bind] at h
      have hkx : s.pc x = k := hpc x (by simp)
      have hstep : stepRank x s = some ⟨w1, Function.update s.pc x (k + 1)⟩ := by
        unfold stepRank
        rw [hkx, if_pos hlt, hx]
        rfl
      rw [List.nodup_cons] at hnd
      obtain ⟨s', hs', hw', hpc'⟩ := ih ⟨w1, Function.update s.pc x (k + 1)⟩ w' hnd.2
        (fun r hr => by
          have hne : r ≠ x := fun e => hnd.1 (e ▸ hr)
          simp only [Function.update_apply, hne, if_false]
          exact hpc r (by simp [hr]))
        (by rw [call_length _ _ _ _ _ hx]; exact hlt) h
      refine ⟨s', ?_, hw', ?_⟩
      · simp only [runSched, hstep, Option.bind_eq_bind, Option.some_bind]
        exact hs'
      · intro r
        rw [hpc' r]
        simp only [Function.update_apply, List.mem_cons]
        by_cases h1 : r ∈ rs
        · simp [h1]
        · by_cases h2 : r = x
          · simp [h2]
          · simp [h1, h2]

/-- One round of `sort_round` is a run of `runSched`. -/
theorem runSched_round (i : Nat) (s : Sys) (w' : World) (hi : i < s.world.procs.length)
    (hpc : ∀ r, r < s.world.procs.length → s.pc r = 2 * i)
    (h : sort_round i s.world = some w') :
    ∃ s', runSched (List.range s.world.procs.length ++
        (List.range s.world.procs.length).reverse) s = some s' ∧ s'.world = w' ∧
      ∀ r, r < s.world.procs.length → s'.pc r = 2 * i + 2 := by
  simp only [sort_round] at h
  rcases h1 : phase send_recieve (i % 2) (List.range s.world.procs.length) s.world with _ | w1
  · rw [h1] at h; exact Option.noConfusion h
  · rw [h1] at h
    simp only [Option.bind_eq_bind, Option.some_bind] at h
    have hl1 : w1.procs.length = s.world.procs.length := phase_length _ _ _ _ _ h1
    rw [hl1] at h
    have e0 : 2 * i % 2 = 0 := by omega
    have e1 : 2 * i / 2 = i := by omega
    have e2 : ¬ ((2 * i + 1) % 2 = 0) := by omega
    have e3 : (2 * i + 1) / 2 = i := by omega
    obtain ⟨s1, hs1, hw1, hpc1⟩ := runSched_phase (2 * i) (List.range s.world.procs.length) s w1
      (List.nodup_range _) (fun r hr => hpc r (List.mem_range.1 hr)) (by rw [e1]; exact hi)
      (by rw [if_pos e0, e1]; exact h1)
    obtain ⟨s2, hs2, hw2, hpc2⟩ := runSched_phase (2 * i + 1)
      (List.range s.world.procs.length).reverse s1 w'
      (List.nodup_reverse.2 (List.nodup_range _))
      (fun r hr => by
        rw [hpc1 r, if_pos (List.mem_reverse.1 hr)])
      (by rw [e3, hw1, hl1]; exact hi)
      (by rw [if_neg e2, e3, hw1]; exact h)
    refine ⟨s2, ?_, hw2, ?_⟩
    · rw [runSched_append, hs1]
      exact hs2
    · intro r hr
      rw [hpc2 r, if_pos (List.mem_reverse.2 (List.mem_range.2 hr))]

theorem sort_round_length (i : Nat) (w w' : World) (h : sort_round i w = some w') :
    w'.procs.length = w.procs.length := by
  simp only [sort_round] at h
  rcases h1 : phase send_recieve (i % 2) (List.range w.procs.length) w with _ | w1
  · rw [h1] at h; exact Option.noConfusion h
  · rw [h1] at h
    simp only [Option.bind_eq_bind, Option.some_bind] at h
    rw [phase_length _ _ _ _ _ h, phase_length _ _ _ _ _ h1]

/-- The loop of `sort_loop` is a run of `runSched`, in the order `lockstep`. -/
theorem runSched_loop : ∀ (k i : Nat) (s : Sys) (w' : World),
    i + k ≤ s.world.procs.length →
    (∀ r, r < s.world.procs.length → s.pc r = 2 * i) →
    sort_loop i k s.world = some w' →
    ∃ s', runSched (lockstep s.world.procs.length k) s = some s' ∧ s'.world = w' ∧
      ∀ r, r < s.world.procs.length → s'.pc r = 2 * (i + k) := by
  intro k
  induction k with
  | zero =>
    intro i s w' _ hpc h
    simp only [sort_loop, Option.some.injEq] at h
    exact ⟨s, rfl, h, hpc⟩
  | succ k ih =>
    intro i s w' hik hpc h
    simp only [sort_loop] at h
    rcases h1 : sort_round i s.world with _ | w1
    · rw [h1] at h; exact Option.noConfusion h
    · rw [h1] at h
      simp only [Option.bind_eq_bind, Option.some_bind] at h
      obtain ⟨s1, hs1, hw1, hpc1⟩ := runSched_round i s w1 (by omega) hpc h1
      have hl : s1.world.procs.length = s.world.procs.length := by
        rw [hw1]; exact sort_round_length i _ _ h1
      obtain ⟨s2, hs2, hw2, hpc2⟩ := ih (i + 1) s1 w' (by rw [hl]; omega)
        (fun r hr => by rw [hpc1 r (by rw [← hl]; exact hr)]; omega)
        (by rw [hw1]; exact h)
      refine ⟨s2, ?_, hw2, ?_⟩
      · simp only [lockstep]
        rw [runSched_append, hs1]
        simp only [Option.bind_eq_bind, Option.some_bind]
        rw [← hl]; exact hs2
      · intro r hr
        rw [hpc2 r (by rw [hl]; exact hr)]
        omega

/-- Two orders of the three ranks on `[3, 2, 1]`: the order of `sort_loop`, and an order in
which rank 2 starts and the ranks overtake each other; both end with `[1, 2, 3]` after six
calls of every rank. -/
theorem runSched_example :
    (runSched (lockstep 3 3) ⟨⟨[⟨3, none⟩, ⟨2, none⟩, ⟨1, none⟩], [], []⟩, fun _ => 0⟩).map
        (fun s => (s.world.values, (List.range 3).map s.pc)) = some ([1, 2, 3], [6, 6, 6]) ∧
    (runSched [2, 2, 0, 1, 1, 1, 2, 2, 2, 2, 0, 0, 0, 0, 1, 1, 1, 0]
        ⟨⟨[⟨3, none⟩, ⟨2, none⟩, ⟨1, none⟩], [], []⟩, fun _ => 0⟩).map
        (fun s => (s.world.values, (List.range 3).map s.pc)) = some ([1, 2, 3], [6, 6, 6]) :=
  ⟨rfl, rfl⟩

/-! ## The claims -/

/-- C1: for every configuration of values held by the ranks (any number of ranks, any
contents of the receive buffers, bytes included), the loop of `main` runs its `N`
rounds to the end and the values then held by the ranks `0..N-1` are non-decreasing
in rank order. -/
theorem C1_sorted_after_N_rounds (ps : List Proc) (lg : List Event) :
    ∃ w, sort_loop 0 ps.length ⟨ps, [], lg⟩ = some w ∧
      w.procs.length = ps.length ∧ w.values.Sorted (· ≤ ·) := by
  obtain ⟨qs, hqs, hlen, hvals⟩ := sort_loop_spec ps.length 0 ps lg
  refine ⟨_, hqs, hlen, ?_⟩
  show (vals qs).Sorted (· ≤ ·)
  rw [hvals]
  have h := iterRounds_sorted (vals ps)
  rwa [vals_length] at h

/-- C2: conservation.  Every single round ends, with the values held by the ranks a
permutation of the values before it (equal as multisets), and so do the `N` rounds of
the loop of `main`. -/
theorem C2_conservation (ps : List Proc) (lg : List Event) :
    (∀ i, ∃ w, sort_round i ⟨ps, [], lg⟩ = some w ∧
      w.values.Perm (World.mk ps [] lg).values) ∧
    (∃ w, sort_loop 0 ps.length ⟨ps, [], lg⟩ = some w ∧
      w.values.Perm (World.mk ps [] lg).values) := by
  constructor
  · intro i
    obtain ⟨qs, hqs, _, _, hvals⟩ := sort_round_spec i ps lg
    refine ⟨_, hqs, ?_⟩
    show (vals qs).Perm (vals ps)
    rw [hvals]
    exact roundList_perm _ (Nat.mod_lt _ (by decide)) _
  · obtain ⟨qs, hqs, _, hvals⟩ := sort_loop_spec ps.length 0 ps lg
    refine ⟨_, hqs, ?_⟩
    show (vals qs).Perm (vals ps)
    rw [hvals]
    exact iterRounds_perm _ _ _

/-- C3: compare-swap rule.  A responder (rank at least 1, rank parity different from
`sender_flag`) that holds `a` and has received `b` sends `min a b` back to rank `rank - 1`
and is left holding `max a b`; this holds for all values, equal ones included. -/
theorem C3_compare_swap (rank size sender_flag a b : Nat) (h1 : 1 ≤ rank)
    (h2 : rank % 2 ≠ sender_flag) :
    swap_numbers ⟨a, some b⟩ rank size sender_flag =
      Comm.send ((rank : Int) - 1) (min a b) ⟨max a b, some b⟩ := by
  have h3 : ¬ ((rank : Int) - 1 < 0) := by omega
  simp only [swap_numbers, h2, h3, ne_eq, not_false_eq_true, if_true, if_false]
  by_cases hgt : b > a
  · simp only [hgt, if_true]
    rw [Nat.min_eq_left (by omega), Nat.max_eq_right (by omega)]
  · simp only [hgt, if_false]
    rw [Nat.min_eq_right (by omega), Nat.max_eq_left (by omega)]

/-- C3 at rank 1 of 2 in round 0, holding 7 and having received 3. -/
theorem C3_compare_swap_witness :
    1 ≤ 1 ∧ 1 % 2 ≠ 0 ∧
      swap_numbers ⟨7, some 3⟩ 1 2 0 = Comm.send (((1 : Nat) : Int) - 1) (min 7 3) ⟨max 7 3, some 3⟩ :=
  ⟨by decide, by decide, C3_compare_swap 1 2 0 7 3 (by decide) (by decide)⟩

/-- C4: worked example.  From `[5,3,8,1]` on 4 ranks the values are `[3,5,1,8]` after
round 0, `[3,1,5,8]` after round 1, `[1,3,5,8]` after round 2 and `[1,3,5,8]` after
round 3, and `main` prints `5 3 8 1` before and `1 3 5 8` after the sort. -/
theorem C4_worked_example :
    MPI_Scatter [5, 3, 8, 1] 4 = some [⟨5, none⟩, ⟨3, none⟩, ⟨8, none⟩, ⟨1, none⟩] ∧
    (sort_round 0 ⟨[⟨5, none⟩, ⟨3, none⟩, ⟨8, none⟩, ⟨1, none⟩], [], []⟩).map World.values =
      some [3, 5, 1, 8] ∧
    ((sort_round 0 ⟨[⟨5, none⟩, ⟨3, none⟩, ⟨8, none⟩, ⟨1, none⟩], [], []⟩).bind
      (sort_round 1)).map World.values = some [3, 1, 5, 8] ∧
    (((sort_round 0 ⟨[⟨5, none⟩, ⟨3, none⟩, ⟨8, none⟩, ⟨1, none⟩], [], []⟩).bind
      (sort_round 1)).bind (sort_round 2)).map World.values = some [1, 3, 5, 8] ∧
    ((((sort_round 0 ⟨[⟨5, none⟩, ⟨3, none⟩, ⟨8, none⟩, ⟨1, none⟩], [], []⟩).bind
      (sort_round 1)).bind (sort_round 2)).bind (sort_round 3)).map World.values =
      some [1, 3, 5, 8] ∧
    (sort_loop 0 4 ⟨[⟨5, none⟩, ⟨3, none⟩, ⟨8, none⟩, ⟨1, none⟩], [], []⟩).map World.values =
      some [1, 3, 5, 8] ∧
    ∃ log, main (some [5, 3, 8, 1]) 4 = Outcome.finished [5, 3, 8, 1] [1, 3, 5, 8] log :=
  ⟨rfl, rfl, rfl, rfl, rfl, rfl, _, rfl⟩

/-- C6: for at least one rank, after the last round (round `N-1`) rank 0 holds the
minimum of the original values and rank `N-1` holds their maximum: each of the two is
one of the original values, and every original value lies between them. -/
theorem C6_min_and_max (ps : List Proc) (lg : List Event) (hN : 1 ≤ ps.length) :
    ∃ w lo hi, sort_loop 0 ps.length ⟨ps, [], lg⟩ = some w ∧
      w.values[0]? = some lo ∧ w.values[ps.length - 1]? = some hi ∧
      lo ∈ (World.mk ps [] lg).values ∧ hi ∈ (World.mk ps [] lg).values ∧
      ∀ x ∈ (World.mk ps [] lg).values, lo ≤ x ∧ x ≤ hi := by
  obtain ⟨qs, hqs, hlen, hvals⟩ := sort_loop_spec ps.length 0 ps lg
  have hsorted : (vals qs).Sorted (· ≤ ·) := by
    rw [hvals]
    have h := iterRounds_sorted (vals ps)
    rwa [vals_length] at h
  have hperm : (vals qs).Perm (vals ps) := by
    rw [hvals]; exact iterRounds_perm _ _ _
  have hl : (vals qs).length = ps.length := by rw [vals_length, hlen]
  have h0 : 0 < (vals qs).length := by omega
  have h1 : ps.length - 1 < (vals qs).length := by omega
  refine ⟨_, (vals qs)[0], (vals qs)[ps.length - 1], hqs, ?_, ?_, ?_, ?_, ?_⟩
  · exact List.getElem?_eq_getElem h0
  · exact List.getElem?_eq_getElem h1
  · exact hperm.subset (List.getElem_mem h0)
  · exact hperm.subset (List.getElem_mem h1)
  · intro x hx
    have hx' : x ∈ vals qs := hperm.symm.subset hx
    obtain ⟨n, hn, rfl⟩ := List.getElem_of_mem hx'
    constructor
    · have := List.Sorted.rel_get_of_le hsorted (a := ⟨0, h0⟩) (b := ⟨n, hn⟩) (Nat.zero_le _)
      simpa using this
    · have := List.Sorted.rel_get_of_le hsorted (a := ⟨n, hn⟩) (b := ⟨ps.length - 1, h1⟩)
        (by show n ≤ ps.length - 1; omega)
      simpa using this

/-- C6 on the two ranks holding 2 and 1. -/
theorem C6_min_and_max_witness :
    1 ≤ ([⟨2, none⟩, ⟨1, none⟩] : List Proc).length ∧
    ∃ w lo hi, sort_loop 0 ([⟨2, none⟩, ⟨1, none⟩] : List Proc).length
        ⟨[⟨2, none⟩, ⟨1, none⟩], [], []⟩ = some w ∧
      w.values[0]? = some lo ∧
      w.values[([⟨2, none⟩, ⟨1, none⟩] : List Proc).length - 1]? = some hi ∧
      lo ∈ (World.mk [⟨2, none⟩, ⟨1, none⟩] [] []).values ∧
      hi ∈ (World.mk [⟨2, none⟩, ⟨1, none⟩] [] []).values ∧
      ∀ x ∈ (World.mk [⟨2, none⟩, ⟨1, none⟩] [] []).values, lo ≤ x ∧ x ≤ hi :=
  ⟨by decide, C6_min_and_max [⟨2, none⟩, ⟨1, none⟩] [] (by decide)⟩

/-- C7: with a single process (rank 0, size 1) neither `send_recieve` nor `swap_numbers`
issues an MPI call in the one round (round 0), the round leaves the locals and the
history of calls as they were, and `main` prints the single value unchanged after a run
without any send or receive. -/
theorem C7_single_worker (p : Proc) (lg : List Event) (x : Nat) :
    send_recieve p 0 1 (0 % 2) = Comm.done p ∧
    swap_numbers p 0 1 (0 % 2) = Comm.done p ∧
    sort_loop 0 1 ⟨[p], [], lg⟩ = some ⟨[p], [], lg⟩ ∧
    main (some [x]) 1 = Outcome.finished [x] [x] [] := by
  refine ⟨?_, ?_, ?_, ?_⟩
  · simp [send_recieve]
  · simp [swap_numbers]
  · simp [sort_loop, sort_round, phase, call, exec, send_recieve, swap_numbers]
  · rfl

/-- C8 fails on the code: with three numbers in the file and two processes the
lengths differ, yet the run ends normally, after four point-to-point calls. -/
theorem C8_counterexample :
    ([2, 1, 0] : List Nat).length ≠ 2 ∧
    main (some [2, 1, 0]) 2 =
      Outcome.finished [2, 1, 0] [1, 2, 0]
        [Event.sent 0 1 2, Event.received 1 0 2, Event.sent 1 0 1, Event.received 0 1 1] :=
  ⟨by decide, rfl⟩

/-- C8 as amended: whenever the file holds more numbers than there are processes, the
run does not fail.  The first `size` numbers are scattered, the loop runs its `size` rounds
on them, `main` ends normally with what the loop leaves (so it neither aborts nor stops
before the exchanges), and with at least two processes the exchanges do begin: rank 0
sends its number to rank 1. -/
theorem C8_longer_input_runs (xs : List Nat) (size : Nat) (h : size < xs.length) :
    ∃ w, MPI_Scatter xs size = some ((xs.take size).map (fun x => Proc.mk x none)) ∧
      sort_loop 0 size ⟨(xs.take size).map (fun x => Proc.mk x none), [], []⟩ = some w ∧
      main (some xs) size = Outcome.finished xs (MPI_Gather w.procs xs) w.log ∧
      main (some xs) size ≠ Outcome.aborted ∧
      (2 ≤ size → Event.sent 0 1 (at_ xs 0) ∈ w.log) := by
  obtain ⟨w, hw, hmain, hlog, _⟩ := main_run xs size (Nat.le_of_lt h)
  refine ⟨w, ?_, hw, hmain, ?_, ?_⟩
  · simp [MPI_Scatter, Nat.le_of_lt h]
  · rw [hmain]; exact fun e => Outcome.noConfusion e
  · intro h2
    rw [hlog]
    obtain ⟨k, rfl⟩ : ∃ k, size = k + 1 := ⟨size - 1, by omega⟩
    have hl : (xs.take (k + 1)).length = k + 1 := by simp; omega
    have h0 : at_ (xs.take (k + 1)) 0 = at_ xs 0 := by
      cases xs with
      | nil => simp at h
      | cons x xs => simp [at_]
    rw [← h0]
    exact first_send_logged _ k (by omega)

/-- C8 as amended, on three numbers and two processes. -/
theorem C8_longer_input_runs_witness :
    2 < ([2, 1, 0] : List Nat).length ∧
    ∃ w, MPI_Scatter [2, 1, 0] 2 =
        some ((([2, 1, 0] : List Nat).take 2).map (fun x => Proc.mk x none)) ∧
      sort_loop 0 2 ⟨(([2, 1, 0] : List Nat).take 2).map (fun x => Proc.mk x none), [], []⟩ =
        some w ∧
      main (some [2, 1, 0]) 2 = Outcome.finished [2, 1, 0] (MPI_Gather w.procs [2, 1, 0]) w.log ∧
      main (some [2, 1, 0]) 2 ≠ Outcome.aborted ∧
      (2 ≤ 2 → Event.sent 0 1 (at_ [2, 1, 0] 0) ∈ w.log) :=
  ⟨by decide, C8_longer_input_runs [2, 1, 0] 2 (by decide)⟩

/-- C9: determinism and data-independent schedule.  (1) `main` is the scatter, then exactly
`N` rounds numbered `0..N-1` one after the other, then the gather of what the last round
leaves, and it prints the sorted rearrangement of its input.  (2) Two runs on inputs of the
same length complete the same calls (same direction, same caller, same partner) in the same
order.  (3) When the processes run on their own, in any order of their steps that lets every
rank leave its loop, and whatever the receive buffers hold at the start, the ranks end with
that same sorted sequence, and every rank has made exactly `2 N` calls, the two calls of
each of `N` rounds.  (4) Such an order exists: the one of `sort_loop`. -/
theorem C9_deterministic_schedule (xs ys : List Nat) (h : xs.length = ys.length) :
    (∃ (ws : List World) (w : World),
      MPI_Scatter xs xs.length = some (xs.map (fun x => Proc.mk x none)) ∧
      ws.length = xs.length + 1 ∧
      ws[0]? = some ⟨xs.map (fun x => Proc.mk x none), [], []⟩ ∧
      (∀ i, i < xs.length → ∃ a b, ws[i]? = some a ∧ ws[i + 1]? = some b ∧
        sort_round i a = some b) ∧
      ws[xs.length]? = some w ∧
      main (some xs) xs.length = Outcome.finished xs (MPI_Gather w.procs xs) w.log ∧
      MPI_Gather w.procs xs = xs.insertionSort (· ≤ ·)) ∧
    (∃ out log out' log',
      main (some xs) xs.length = Outcome.finished xs out log ∧
      main (some ys) ys.length = Outcome.finished ys out' log' ∧
      log.map Event.link = log'.map Event.link) ∧
    (∀ (ps : List Proc) (lg : List Event) (sched : List Nat) (s : Sys),
      (World.mk ps [] lg).values = xs →
      runSched sched ⟨⟨ps, [], lg⟩, fun _ => 0⟩ = some s → s.finished →
      s.world.values = xs.insertionSort (· ≤ ·) ∧
        ∀ r, r < xs.length → sched.count r = 2 * xs.length) ∧
    (∀ (ps : List Proc) (lg : List Event), (World.mk ps [] lg).values = xs →
      ∃ s, runSched (lockstep xs.length xs.length) ⟨⟨ps, [], lg⟩, fun _ => 0⟩ = some s ∧
        s.finished ∧ sort_loop 0 xs.length ⟨ps, [], lg⟩ = some s.world) := by
  refine ⟨?_, ?_, ?_, ?_⟩
  · obtain ⟨w, hw, hmain, _, hvals⟩ := main_run xs xs.length (Nat.le_refl _)
    rw [List.take_length] at hw hvals
    obtain ⟨ws, hlen, h0, hk, hstep⟩ := sort_loop_trace xs.length 0 _ _ hw
    have hl : w.procs.length = xs.length := by
      have := congrArg List.length hvals
      rwa [vals_length, iterRounds_length] at this
    refine ⟨ws, w, by simp [MPI_Scatter], hlen, h0, ?_, hk, hmain, ?_⟩
    · intro i hi
      obtain ⟨a, b, ha, hb, hab⟩ := hstep i hi
      exact ⟨a, b, ha, hb, by simpa using hab⟩
    · have hg : MPI_Gather w.procs xs = vals w.procs ++ xs.drop w.procs.length := rfl
      rw [hg, hl, List.drop_length, List.append_nil, hvals, iterRounds_eq_insertionSort]
  · have h1 := main_spec xs xs.length (Nat.le_refl _)
    have h2 := main_spec ys ys.length (Nat.le_refl _)
    simp only [List.take_length, List.drop_length, List.append_nil] at h1 h2
    refine ⟨_, _, _, _, h1, h2, ?_⟩
    rw [h]; exact iterLog_link _ _ _ _ h
  · intro ps lg sched s hv hrun hfin
    have hv' : vals ps = xs := hv
    have hG0 := good_start ps lg
    rw [hv'] at hG0
    have hG := runSched_good xs sched _ s hG0 hrun
    refine ⟨?_, ?_⟩
    · rw [good_finished xs s hG hfin, iterRounds_eq_insertionSort]
    · intro r hr
      have hc := runSched_count sched _ s hrun r
      simp only [Nat.zero_add] at hc
      have h1 := hfin r (by rw [hG.len]; exact hr)
      rw [hG.len] at h1
      have h2 := hG.bound r hr
      omega
  · intro ps lg hv
    have hv' : vals ps = xs := hv
    subst hv'
    rw [vals_length]
    obtain ⟨qs, hqs, hlq, _⟩ := sort_loop_spec ps.length 0 ps lg
    obtain ⟨s, hs, hw, hpc⟩ := runSched_loop ps.length 0 ⟨⟨ps, [], lg⟩, fun _ => 0⟩ _
      (by simp) (fun _ _ => rfl) hqs
    simp only [] at hs hpc
    refine ⟨s, hs, ?_, by rw [hw]; exact hqs⟩
    intro r hr
    have hlen : s.world.procs.length = ps.length := by rw [hw]; exact hlq
    rw [hlen] at hr ⊢
    rw [hpc r hr]
    omega

/-- C9 on the inputs `[2, 1]` and `[4, 3]`. -/
theorem C9_deterministic_schedule_witness :
    ([2, 1] : List Nat).length = ([4, 3] : List Nat).length ∧
    (∃ (ws : List World) (w : World),
      MPI_Scatter ([2, 1] : List Nat) ([2, 1] : List Nat).length = some (([2, 1] : List Nat).map (fun x => Proc.mk x none)) ∧
      ws.length = ([2, 1] : List Nat).length + 1 ∧
      ws[0]? = some ⟨([2, 1] : List Nat).map (fun x => Proc.mk x none), [], []⟩ ∧
      (∀ i, i < ([2, 1] : List Nat).length → ∃ a b, ws[i]? = some a ∧ ws[i + 1]? = some b ∧
        sort_round i a = some b) ∧
      ws[([2, 1] : List Nat).length]? = some w ∧
      main (some ([2, 1] : List Nat)) ([2, 1] : List Nat).length = Outcome.finished ([2, 1] : List Nat) (MPI_Gather w.procs ([2, 1] : List Nat)) w.log ∧
      MPI_Gather w.procs ([2, 1] : List Nat) = ([2, 1] : List Nat).insertionSort (· ≤ ·)) ∧
    (∃ out log out' log',
      main (some ([2, 1] : List Nat)) ([2, 1] : List Nat).length = Outcome.finished ([2, 1] : List Nat) out log ∧
      main (some ([4, 3] : List Nat)) ([4, 3] : List Nat).length = Outcome.finished ([4, 3] : List Nat) out' log' ∧
      log.map Event.link = log'.map Event.link) ∧
    (∀ (ps : List Proc) (lg : List Event) (sched : List Nat) (s : Sys),
      (World.mk ps [] lg).values = ([2, 1] : List Nat) →
      runSched sched ⟨⟨ps, [], lg⟩, fun _ => 0⟩ = some s → s.finished →
      s.world.values = ([2, 1] : List Nat).insertionSort (· ≤ ·) ∧
        ∀ r, r < ([2, 1] : List Nat).length → sched.count r = 2 * ([2, 1] : List Nat).length) ∧
    (∀ (ps : List Proc) (lg : List Event), (World.mk ps [] lg).values = ([2, 1] : List Nat) →
      ∃ s, runSched (lockstep ([2, 1] : List Nat).length ([2, 1] : List Nat).length) ⟨⟨ps, [], lg⟩, fun _ => 0⟩ = some s ∧
        s.finished ∧ sort_loop 0 ([2, 1] : List Nat).length ⟨ps, [], lg⟩ = some s.world) :=
  ⟨by decide, C9_deterministic_schedule [2, 1] [4, 3] (by decide)⟩

/-- C10: round semantics.  Round `i` ends; afterwards every pair of ranks `r`, `r+1` with
`r mod 2 = i mod 2` and `r+1 < N` holds the smaller of its two values at `r` and the larger
at `r+1`, and every rank in no such pair (a sender-phase rank with `r+1 >= N`, or rank 0 in
the receiver phase) holds the value it held before. -/
theorem C10_round_semantics (i : Nat) (ps : List Proc) (lg : List Event) :
    ∃ w, sort_round i ⟨ps, [], lg⟩ = some w ∧ w.procs.length = ps.length ∧
      (∀ r, r % 2 = i % 2 → r + 1 < ps.length →
        at_ w.values r =
          min (at_ (World.mk ps [] lg).values r) (at_ (World.mk ps [] lg).values (r + 1)) ∧
        at_ w.values (r + 1) =
          max (at_ (World.mk ps [] lg).values r) (at_ (World.mk ps [] lg).values (r + 1))) ∧
      (∀ r, r < ps.length →
        (r % 2 = i % 2 ∧ ps.length ≤ r + 1) ∨ (r % 2 ≠ i % 2 ∧ r = 0) →
        at_ w.values r = at_ (World.mk ps [] lg).values r) := by
  obtain ⟨qs, hqs, hlen, _, hvals⟩ := sort_round_spec i ps lg
  have hv : (vals ps).length = ps.length := vals_length ps
  refine ⟨_, hqs, hlen, ?_, ?_⟩
  · intro r hpar hr
    show at_ (vals qs) r = min (at_ (vals ps) r) (at_ (vals ps) (r + 1)) ∧
      at_ (vals qs) (r + 1) = max (at_ (vals ps) r) (at_ (vals ps) (r + 1))
    rw [hvals, at_roundList _ _ _ (by omega), at_roundList _ _ _ (by omega)]
    have hpar' : ¬ ((r + 1) % 2 = i % 2) := by omega
    have h1 : 1 ≤ r + 1 := by omega
    simp only [roundVal, hpar, hpar', hv, hr, h1, if_true, if_false, at_, Nat.add_sub_cancel,
      and_self]
  · intro r hr hcase
    show at_ (vals qs) r = at_ (vals ps) r
    rw [hvals, at_roundList _ _ _ (by omega)]
    rcases hcase with ⟨hpar, hlast⟩ | ⟨hpar, h0⟩
    · have : ¬ (r + 1 < ps.length) := by omega
      simp only [roundVal, hpar, hv, this, if_true, if_false, at_]
    · have : ¬ (1 ≤ r) := by omega
      simp only [roundVal, hpar, this, if_false, at_]

/-- C11: no outward exchange.  For a rank in `[0, N)`, whatever its locals and the round:
every call issued by `send_recieve` or `swap_numbers` names a partner in `[0, N)`; rank
`N-1` in the sender phase and rank 0 in the receiver phase issue no call at all and keep
their locals; in a run of a round, and of the whole loop, every completed call has its
caller and its partner in `[0, N)`, and such a boundary rank holds its value unchanged. -/
theorem C11_no_outward_exchange (ps : List Proc) (lg : List Event) (rank : Nat)
    (h : rank < ps.length) :
    (∀ p sender_flag d,
      (send_recieve p rank ps.length sender_flag).partner = some d ∨
        (swap_numbers p rank ps.length sender_flag).partner = some d →
      0 ≤ d ∧ d < (ps.length : Int)) ∧
    (∀ p sender_flag,
      (rank + 1 = ps.length ∧ rank % 2 = sender_flag) ∨ (rank = 0 ∧ rank % 2 ≠ sender_flag) →
      send_recieve p rank ps.length sender_flag = Comm.done p ∧
        swap_numbers p rank ps.length sender_flag = Comm.done p) ∧
    (∀ i, ∃ w new, sort_round i ⟨ps, [], lg⟩ = some w ∧ w.log = lg ++ new ∧
      (∀ e ∈ new, Event.inside ps.length e) ∧
      ((rank + 1 = ps.length ∧ rank % 2 = i % 2) ∨ (rank = 0 ∧ rank % 2 ≠ i % 2) →
        at_ w.values rank = at_ (World.mk ps [] lg).values rank)) ∧
    (∃ w new, sort_loop 0 ps.length ⟨ps, [], lg⟩ = some w ∧ w.log = lg ++ new ∧
      ∀ e ∈ new, Event.inside ps.length e) := by
  have hv : (vals ps).length = ps.length := vals_length ps
  refine ⟨?_, ?_, ?_, ?_⟩
  · intro p flag d hd
    by_cases hpar : rank % 2 = flag
    · by_cases hlast : ((rank : Int) + 1 ≥ (ps.length : Int))
      · simp [send_recieve, swap_numbers, hpar, hlast, Comm.partner] at hd
      · simp only [send_recieve, swap_numbers, hpar, hlast, if_true, if_false, ne_eq,
          not_true_eq_false, Comm.partner, Option.some.injEq, or_self] at hd
        omega
    · by_cases hzero : ((rank : Int) - 1 < 0)
      · simp [send_recieve, swap_numbers, hpar, hzero, Comm.partner] at hd
      · rcases hrecv : p.recieved_number with _ | b
        · simp only [send_recieve, swap_numbers, hpar, hzero, if_false, if_true, ne_eq,
            not_false_eq_true, hrecv, Comm.partner, Option.some.injEq, or_false,
            reduceCtorEq] at hd
          omega
        · by_cases hgt : b > p.my_number
          · simp only [send_recieve, swap_numbers, hpar, hzero, if_false, if_true, ne_eq,
              not_false_eq_true, hrecv, hgt, Comm.partner, Option.some.injEq, or_self] at hd
            omega
          · simp only [send_recieve, swap_numbers, hpar, hzero, if_false, if_true, ne_eq,
              not_false_eq_true, hrecv, hgt, Comm.partner, Option.some.injEq, or_self] at hd
            omega
  · intro p flag hcase
    rcases hcase with ⟨hlast, hpar⟩ | ⟨h0, hpar⟩
    · have h1 : ((rank : Int) + 1 ≥ (ps.length : Int)) := by omega
      simp only [send_recieve, swap_numbers, hpar, h1, if_true, ne_eq, not_true_eq_false,
        if_false, and_self]
    · have h1 : ((rank : Int) - 1 < 0) := by omega
      simp only [send_recieve, swap_numbers, hpar, h1, if_true, ne_eq, not_false_eq_true,
        if_false, and_self]
  · intro i
    obtain ⟨qs, hqs, _, _, hvals⟩ := sort_round_spec i ps lg
    refine ⟨_, _, hqs, rfl, ?_, ?_⟩
    · intro e he
      have := roundLog_inside (i % 2) (vals ps) e he
      rwa [hv] at this
    · intro hcase
      show at_ (vals qs) rank = at_ (vals ps) rank
      rw [hvals, at_roundList _ _ _ (by omega)]
      rcases hcase with ⟨hlast, hpar⟩ | ⟨h0, hpar⟩
      · have : ¬ (rank + 1 < ps.length) := by omega
        simp only [roundVal, hpar, hv, this, if_true, if_false, at_]
      · have : ¬ (1 ≤ rank) := by omega
        simp only [roundVal, hpar, this, if_false, at_]
  · obtain ⟨qs, hqs, _, _⟩ := sort_loop_spec ps.length 0 ps lg
    refine ⟨_, _, hqs, rfl, ?_⟩
    intro e he
    have := iterLog_inside ps.length 0 (vals ps) e he
    rwa [hv] at this

/-- C11 on rank 1 of the two ranks holding 2 and 1. -/
theorem C11_no_outward_exchange_witness :
    1 < ([⟨2, none⟩, ⟨1, none⟩] : List Proc).length ∧
    (∀ p sender_flag d,
      (send_recieve p 1 ([⟨2, none⟩, ⟨1, none⟩] : List Proc).length sender_flag).partner = some d ∨
        (swap_numbers p 1 ([⟨2, none⟩, ⟨1, none⟩] : List Proc).length sender_flag).partner = some d →
      0 ≤ d ∧ d < (([⟨2, none⟩, ⟨1, none⟩] : List Proc).length : Int)) ∧
    (∀ p sender_flag,
      (1 + 1 = ([⟨2, none⟩, ⟨1, none⟩] : List Proc).length ∧ 1 % 2 = sender_flag) ∨ (1 = 0 ∧ 1 % 2 ≠ sender_flag) →
      send_recieve p 1 ([⟨2, none⟩, ⟨1, none⟩] : List Proc).length sender_flag = Comm.done p ∧
        swap_numbers p 1 ([⟨2, none⟩, ⟨1, none⟩] : List Proc).length sender_flag = Comm.done p) ∧
    (∀ i, ∃ w new, sort_round i ⟨([⟨2, none⟩, ⟨1, none⟩] : List Proc), [], []⟩ = some w ∧ w.log = [] ++ new ∧
      (∀ e ∈ new, Event.inside ([⟨2, none⟩, ⟨1, none⟩] : List Proc).length e) ∧
      ((1 + 1 = ([⟨2, none⟩, ⟨1, none⟩] : List Proc).length ∧ 1 % 2 = i % 2) ∨ (1 = 0 ∧ 1 % 2 ≠ i % 2) →
        at_ w.values 1 = at_ (World.mk ([⟨2, none⟩, ⟨1, none⟩] : List Proc) [] []).values 1)) ∧
    (∃ w new, sort_loop 0 ([⟨2, none⟩, ⟨1, none⟩] : List Proc).length ⟨([⟨2, none⟩, ⟨1, none⟩] : List Proc), [], []⟩ = some w ∧ w.log = [] ++ new ∧
      ∀ e ∈ new, Event.inside ([⟨2, none⟩, ⟨1, none⟩] : List Proc).length e) :=
  ⟨by decide, C11_no_outward_exchange [⟨2, none⟩, ⟨1, none⟩] [] 1 (by decide)⟩

/-- C12: matched communication.  In round `i`, for neighbours `r` and `r+1` inside the
communicator: `send_recieve` of rank `r` sends to `r+1` exactly when `send_recieve` of rank
`r+1` receives from `r` (whatever the locals); with the locals the two ranks have after
`send_recieve`, `swap_numbers` of rank `r+1` sends back to `r` exactly when `swap_numbers`
of rank `r` receives from `r+1`; no rank both sends and receives in `send_recieve`; and
all calls of a rank in the round name the same partner, so the active pairs are disjoint. -/
theorem C12_matched_communication (ps : List Proc) (lg : List Event) (i r : Nat)
    (hr : r + 1 < ps.length) :
    (∀ a b : Proc,
      (send_recieve a r ps.length (i % 2)).sendsTo ((r : Int) + 1) = true ↔
        (send_recieve b (r + 1) ps.length (i % 2)).recvsFrom (r : Int) = true) ∧
    (∃ w1 a b,
      phase send_recieve (i % 2) (List.range ps.length) ⟨ps, [], lg⟩ = some w1 ∧
      w1.procs[r]? = some a ∧ w1.procs[r + 1]? = some b ∧
      ((swap_numbers b (r + 1) ps.length (i % 2)).sendsTo (r : Int) = true ↔
        (swap_numbers a r ps.length (i % 2)).recvsFrom ((r : Int) + 1) = true)) ∧
    (∀ (rank : Nat) (a b : Proc) (d s : Int),
      ¬ ((send_recieve a rank ps.length (i % 2)).sendsTo d = true ∧
        (send_recieve b rank ps.length (i % 2)).recvsFrom s = true)) ∧
    (∀ (rank : Nat) (a b : Proc) (d d' : Int),
      (send_recieve a rank ps.length (i % 2)).partner = some d →
      (swap_numbers b rank ps.length (i % 2)).partner = some d' → d = d') := by
  have hf : i % 2 < 2 := Nat.mod_lt _ (by decide)
  refine ⟨?_, ?_, ?_, ?_⟩
  · intro a b
    rw [send_recieve_sendsTo, send_recieve_recvsFrom]
    constructor
    · rintro ⟨h1, _, _⟩
      exact ⟨by omega, by omega, by omega⟩
    · rintro ⟨h1, _, _⟩
      exact ⟨by omega, hr, rfl⟩
  · obtain ⟨w1, _, hw1, _, _, _, hprocs⟩ := round_phases i ps lg
    have ha := hprocs r ps[r] (List.getElem?_eq_getElem (by omega))
    have hb := hprocs (r + 1) ps[r + 1] (List.getElem?_eq_getElem hr)
    refine ⟨w1, _, _, hw1, ha, hb, ?_⟩
    rw [swap_numbers_sendsTo, swap_numbers_recvsFrom]
    constructor
    · rintro ⟨h1, _, _, _⟩
      exact ⟨by omega, hr, rfl⟩
    · rintro ⟨h1, _, _⟩
      have hp : (r + 1) % 2 ≠ i % 2 := by omega
      refine ⟨hp, by omega, ?_, by omega⟩
      simp [roundRecv, hp]
  · intro rank a b d s
    rw [send_recieve_sendsTo, send_recieve_recvsFrom]
    rintro ⟨⟨h1, _, _⟩, ⟨h2, _, _⟩⟩
    exact h2 h1
  · intro rank a b d d' h1 h2
    rw [partner_iff, send_recieve_sendsTo, send_recieve_recvsFrom] at h1
    rw [partner_iff, swap_numbers_sendsTo, swap_numbers_recvsFrom] at h2
    rcases h1 with ⟨p1, _, e1⟩ | ⟨p1, _, e1⟩ <;> rcases h2 with ⟨p2, _, _, e2⟩ | ⟨p2, _, e2⟩
    · exact absurd p1 p2
    · rw [e1, e2]
    · rw [e1, e2]
    · exact absurd p2 p1

/-- C12 on ranks 0 and 1 of the two ranks holding 2 and 1, in round 0. -/
theorem C12_matched_communication_witness :
    0 + 1 < ([⟨2, none⟩, ⟨1, none⟩] : List Proc).length ∧
    (∀ a b : Proc,
      (send_recieve a 0 ([⟨2, none⟩, ⟨1, none⟩] : List Proc).length (0 % 2)).sendsTo ((0 : Int) + 1) = true ↔
        (send_recieve b (0 + 1) ([⟨2, none⟩, ⟨1, none⟩] : List Proc).length (0 % 2)).recvsFrom (0 : Int) = true) ∧
    (∃ w1 a b,
      phase send_recieve (0 % 2) (List.range ([⟨2, none⟩, ⟨1, none⟩] : List Proc).length) ⟨([⟨2, none⟩, ⟨1, none⟩] : List Proc), [], []⟩ = some w1 ∧
      w1.procs[0]? = some a ∧ w1.procs[0 + 1]? = some b ∧
      ((swap_numbers b (0 + 1) ([⟨2, none⟩, ⟨1, none⟩] : List Proc).length (0 % 2)).sendsTo (0 : Int) = true ↔
        (swap_numbers a 0 ([⟨2, none⟩, ⟨1, none⟩] : List Proc).length (0 % 2)).recvsFrom ((0 : Int) + 1) = true)) ∧
    (∀ (rank : Nat) (a b : Proc) (d s : Int),
      ¬ ((send_recieve a rank ([⟨2, none⟩, ⟨1, none⟩] : List Proc).length (0 % 2)).sendsTo d = true ∧
        (send_recieve b rank ([⟨2, none⟩, ⟨1, none⟩] : List Proc).length (0 % 2)).recvsFrom s = true)) ∧
    (∀ (rank : Nat) (a b : Proc) (d d' : Int),
      (send_recieve a rank ([⟨2, none⟩, ⟨1, none⟩] : List Proc).length (0 % 2)).partner = some d →
      (swap_numbers b rank ([⟨2, none⟩, ⟨1, none⟩] : List Proc).length (0 % 2)).partner = some d' → d = d') :=
  ⟨by decide, C12_matched_communication [⟨2, none⟩, ⟨1, none⟩] [] 0 0 (by decide)⟩

/-- C13: a configuration in non-decreasing rank order is a fixed point of every round,
of either parity: the round ends and every rank holds the value it held before (equal
neighbours included). -/
theorem C13_sorted_fixed_point (i : Nat) (ps : List Proc) (lg : List Event)
    (h : (World.mk ps [] lg).values.Sorted (· ≤ ·)) :
    ∃ w, sort_round i ⟨ps, [], lg⟩ = some w ∧ w.values = (World.mk ps [] lg).values := by
  obtain ⟨qs, hqs, _, _, hvals⟩ := sort_round_spec i ps lg
  refine ⟨_, hqs, ?_⟩
  show vals qs = vals ps
  rw [hvals]
  exact roundList_sorted _ _ h

/-- C13 on the ranks holding 1, 1, 2, in an even and in an odd round. -/
theorem C13_sorted_fixed_point_witness :
    (World.mk [⟨1, none⟩, ⟨1, none⟩, ⟨2, none⟩] [] []).values.Sorted (· ≤ ·) ∧
    (∃ w, sort_round 0 ⟨[⟨1, none⟩, ⟨1, none⟩, ⟨2, none⟩], [], []⟩ = some w ∧
      w.values = (World.mk [⟨1, none⟩, ⟨1, none⟩, ⟨2, none⟩] [] []).values) ∧
    (∃ w, sort_round 1 ⟨[⟨1, none⟩, ⟨1, none⟩, ⟨2, none⟩], [], []⟩ = some w ∧
      w.values = (World.mk [⟨1, none⟩, ⟨1, none⟩, ⟨2, none⟩] [] []).values) :=
  ⟨by decide,
    C13_sorted_fixed_point 0 [⟨1, none⟩, ⟨1, none⟩, ⟨2, none⟩] [] (by decide),
    C13_sorted_fixed_point 1 [⟨1, none⟩, ⟨1, none⟩, ⟨2, none⟩] [] (by decide)⟩

/-- C14: the receive buffer is written before it is read.  The scatter of `main` leaves
`recieved_number` uninitialised on every rank.  In every round `i`, started from any
locals, a rank `r >= 1` with `r mod 2 != i mod 2` has, once `send_recieve` has run, received
in this round the value that rank `r-1` holds and has sent in this round; when its turn to
run `swap_numbers` comes, its locals still are its own value and that received value, so the
comparison reads the value of rank `r-1` of this round and the call is a send, never a read
of an uninitialised or older buffer. -/
theorem C14_receive_buffer_written (ps : List Proc) (lg : List Event) (i r : Nat)
    (h1 : 1 ≤ r) (h2 : r < ps.length) (h3 : r % 2 ≠ i % 2) :
    (∀ (xs : List Nat) (size : Nat) (ps0 : List Proc), MPI_Scatter xs size = some ps0 →
      ∀ p ∈ ps0, p.recieved_number = none) ∧
    ∃ w1 w2 new,
      phase send_recieve (i % 2) (List.range ps.length) ⟨ps, [], lg⟩ = some w1 ∧
      phase swap_numbers (i % 2) (List.range ps.length).reverse w1 = some w2 ∧
      sort_round i ⟨ps, [], lg⟩ = some w2 ∧
      w1.log = lg ++ new ∧
      Event.sent (r - 1) (r : Int) (at_ (World.mk ps [] lg).values (r - 1)) ∈ new ∧
      Event.received r ((r : Int) - 1) (at_ (World.mk ps [] lg).values (r - 1)) ∈ new ∧
      ∀ pre post, (List.range ps.length).reverse = pre ++ r :: post →
        ∃ u, phase swap_numbers (i % 2) pre w1 = some u ∧
          u.procs[r]? = some ⟨at_ (World.mk ps [] lg).values r,
            some (at_ (World.mk ps [] lg).values (r - 1))⟩ ∧
          swap_numbers ⟨at_ (World.mk ps [] lg).values r,
              some (at_ (World.mk ps [] lg).values (r - 1))⟩ r ps.length (i % 2) =
            Comm.send ((r : Int) - 1)
              (min (at_ (World.mk ps [] lg).values r)
                (at_ (World.mk ps [] lg).values (r - 1)))
              ⟨max (at_ (World.mk ps [] lg).values r)
                (at_ (World.mk ps [] lg).values (r - 1)),
                some (at_ (World.mk ps [] lg).values (r - 1))⟩ := by
  have hf : i % 2 < 2 := Nat.mod_lt _ (by decide)
  have hv : (vals ps).length = ps.length := vals_length ps
  refine ⟨scatter_uninitialised, ?_⟩
  obtain ⟨w1, w2, hw1, hw2, hround, hlog, hprocs⟩ := round_phases i ps lg
  have hpr : ps[r]? = some ps[r] := List.getElem?_eq_getElem h2
  have hown : at_ (vals ps) r = (ps[r]).my_number := vals_getD ps r _ hpr
  have hrecv : roundRecv (i % 2) (vals ps) r (ps[r]).recieved_number =
      some (at_ (vals ps) (r - 1)) := by
    simp only [roundRecv, h3, h1, ne_eq, not_false_eq_true, and_self, if_true, at_]
  have hloc : w1.procs[r]? = some ⟨at_ (vals ps) r, some (at_ (vals ps) (r - 1))⟩ := by
    rw [hprocs r _ hpr, hrecv, hown]
  refine ⟨w1, w2, _, hw1, hw2, hround, hlog, ?_, ?_, ?_⟩
  · show Event.sent (r - 1) (r : Int) (at_ (vals ps) (r - 1)) ∈ _
    rw [List.mem_flatMap]
    refine ⟨r - 1, by simp; omega, ?_⟩
    have hp : (r - 1) % 2 = i % 2 := by omega
    have hl : r - 1 + 1 < (vals ps).length := by omega
    have hd : (((r - 1 : Nat) : Int) + 1) = (r : Int) := by omega
    simp only [evA, hp, hl, if_true, hd, at_, List.mem_singleton]
  · show Event.received r ((r : Int) - 1) (at_ (vals ps) (r - 1)) ∈ _
    rw [List.mem_flatMap]
    refine ⟨r, by simpa using h2, ?_⟩
    simp only [evA, h3, h1, if_true, if_false, at_, List.mem_singleton]
  · intro pre post hsplit
    rw [hsplit, phase_append] at hw2
    rcases hu : phase swap_numbers (i % 2) pre w1 with _ | u
    · rw [hu] at hw2; exact Option.noConfusion hw2
    · have hnd : (pre ++ r :: post).Nodup := by
        rw [← hsplit]; exact List.nodup_reverse.2 (List.nodup_range _)
      have hnot : r ∉ pre := by
        intro hmem
        rw [List.nodup_middle, List.nodup_cons] at hnd
        exact hnd.1 (List.mem_append_left _ hmem)
      refine ⟨u, rfl, ?_, swap_numbers_responder _ _ _ _ _ h1 h3⟩
      show u.procs[r]? = some ⟨at_ (vals ps) r, some (at_ (vals ps) (r - 1))⟩
      rw [phase_other swap_numbers (i % 2) r pre w1 u hu hnot, hloc]

/-- C14 on rank 1 of the two ranks holding 2 and 1, in round 0, both buffers
uninitialised. -/
theorem C14_receive_buffer_written_witness :
    1 ≤ 1 ∧ 1 < ([⟨2, none⟩, ⟨1, none⟩] : List Proc).length ∧ 1 % 2 ≠ 0 % 2 ∧
    (∀ (xs : List Nat) (size : Nat) (ps0 : List Proc), MPI_Scatter xs size = some ps0 →
      ∀ p ∈ ps0, p.recieved_number = none) ∧
    ∃ w1 w2 new,
      phase send_recieve (0 % 2) (List.range ([⟨2, none⟩, ⟨1, none⟩] : List Proc).length) ⟨([⟨2, none⟩, ⟨1, none⟩] : List Proc), [], []⟩ = some w1 ∧
      phase swap_numbers (0 % 2) (List.range ([⟨2, none⟩, ⟨1, none⟩] : List Proc).length).reverse w1 = some w2 ∧
      sort_round 0 ⟨([⟨2, none⟩, ⟨1, none⟩] : List Proc), [], []⟩ = some w2 ∧
      w1.log = [] ++ new ∧
      Event.sent (1 - 1) (1 : Int) (at_ (World.mk ([⟨2, none⟩, ⟨1, none⟩] : List Proc) [] []).values (1 - 1)) ∈ new ∧
      Event.received 1 ((1 : Int) - 1) (at_ (World.mk ([⟨2, none⟩, ⟨1, none⟩] : List Proc) [] []).values (1 - 1)) ∈ new ∧
      ∀ pre post, (List.range ([⟨2, none⟩, ⟨1, none⟩] : List Proc).length).reverse = pre ++ 1 :: post →
        ∃ u, phase swap_numbers (0 % 2) pre w1 = some u ∧
          u.procs[1]? = some ⟨at_ (World.mk ([⟨2, none⟩, ⟨1, none⟩] : List Proc) [] []).values 1,
            some (at_ (World.mk ([⟨2, none⟩, ⟨1, none⟩] : List Proc) [] []).values (1 - 1))⟩ ∧
          swap_numbers ⟨at_ (World.mk ([⟨2, none⟩, ⟨1, none⟩] : List Proc) [] []).values 1,
              some (at_ (World.mk ([⟨2, none⟩, ⟨1, none⟩] : List Proc) [] []).values (1 - 1))⟩ 1 ([⟨2, none⟩, ⟨1, none⟩] : List Proc).length (0 % 2) =
            Comm.send ((1 : Int) - 1)
              (min (at_ (World.mk ([⟨2, none⟩, ⟨1, none⟩] : List Proc) [] []).values 1)
                (at_ (World.mk ([⟨2, none⟩, ⟨1, none⟩] : List Proc) [] []).values (1 - 1)))
              ⟨max (at_ (World.mk ([⟨2, none⟩, ⟨1, none⟩] : List Proc) [] []).values 1)
                (at_ (World.mk ([⟨2, none⟩, ⟨1, none⟩] : List Proc) [] []).values (1 - 1)),
                some (at_ (World.mk ([⟨2, none⟩, ⟨1, none⟩] : List Proc) [] []).values (1 - 1))⟩ :=
  ⟨by decide, by decide, by decide,
    C14_receive_buffer_written [⟨2, none⟩, ⟨1, none⟩] [] 0 1 (by decide) (by decide)
      (by decide)⟩

/-- C15: with more numbers in the file than processes, `main` raises no error and prints
as many numbers as it read: the first `size` of them are the first `size` input numbers in
ascending order, the others are the input numbers at the same positions. -/
theorem C15_longer_input (xs : List Nat) (size : Nat) (h : size < xs.length) :
    ∃ out log, main (some xs) size = Outcome.finished xs out log ∧
      out.length = xs.length ∧
      out.take size = (xs.take size).insertionSort (· ≤ ·) ∧
      (∀ j, size ≤ j → out[j]? = xs[j]?) := by
  have hm := main_spec xs size (Nat.le_of_lt h)
  have hl : (xs.take size).length = size := by simp; omega
  have hs : iterRounds 0 size (xs.take size) = (xs.take size).insertionSort (· ≤ ·) := by
    have := iterRounds_eq_insertionSort (xs.take size)
    rwa [hl] at this
  have hl2 : (iterRounds 0 size (xs.take size)).length = size := by
    rw [iterRounds_length, hl]
  refine ⟨_, _, hm, ?_, ?_, ?_⟩
  · rw [List.length_append, hl2, List.length_drop]; omega
  · rw [List.take_left' hl2, hs]
  · intro j hj
    rw [List.getElem?_append_right (by omega), hl2, List.getElem?_drop]
    congr 1
    omega

/-- C15 on the file `[2, 1, 0]` with two processes. -/
theorem C15_longer_input_witness :
    2 < ([2, 1, 0] : List Nat).length ∧
    ∃ out log, main (some [2, 1, 0]) 2 = Outcome.finished [2, 1, 0] out log ∧
      out.length = ([2, 1, 0] : List Nat).length ∧
      out.take 2 = (([2, 1, 0] : List Nat).take 2).insertionSort (· ≤ ·) ∧
      (∀ j, 2 ≤ j → out[j]? = ([2, 1, 0] : List Nat)[j]?) :=
  ⟨by decide, C15_longer_input [2, 1, 0] 2 (by decide)⟩

end Oets

